import Mathlib

/-!
Verification of the trustify vulnerability store core, as a shallow embedding
in Lean 4.

The development models, faithfully to the Rust sources:

* `common/src/purl.rs` — the `Purl` struct and its three-level UUID derivation
  (`package_uuid`, `version_uuid`, `qualifier_uuid`, `uuids`), together with a
  model of the canonical PURL string codec (`Display` / `FromStr`, delegated by
  the source to the external `packageurl` crate, here modelled from the PURL
  specification);
* `common/src/db/query/columns.rs` — the `Columns` registry (`for_field`,
  `strings`, `add_expr`, `json_keys`, `translator`);
* `modules/ingestor/src/service/advisory/osv/loader.rs` — OSV range
  translation (`events_to_range`, `create_package_status`,
  `create_package_status_versions`, `match_versions`) and the CVSS3 severity
  ingestion loop;
* `common/auth/src/authenticator/mod.rs` — `AuthenticatorClient::map_scopes`;
* `modules/fundamental/src/advisory/service/mod.rs` — the `average_severity`
  sort translator of `fetch_advisories`;
* `modules/fundamental/src/sbom/service/sbom.rs` — `count_related_sboms`.

Rust `BTreeMap<String, _>` values are modelled as key-sorted association
lists, with insertion (`insertSorted`) mirroring `BTreeMap::insert` and
construction from an iterator (`btreeOfList`) mirroring `collect`.
-/

namespace Trustify

/-! ### The byte-lexicographic order on strings

Rust `String` keys of a `BTreeMap` are ordered by the lexicographic order on
their bytes; we model it with the lexicographic order on character lists. -/

/-- Lexicographic strict order on character lists. -/
def strLtL : List Char → List Char → Bool
  | [], [] => false
  | [], _ :: _ => true
  | _ :: _, [] => false
  | a :: as, b :: bs => if a = b then strLtL as bs else decide (a < b)

/-- Strict order on strings, via their character lists. -/
def strLt (a b : String) : Bool :=
  strLtL a.data b.data

theorem strLtL_irrefl (l : List Char) : strLtL l l = false := by
  induction l with
  | nil => rfl
  | cons a as ih => simp [strLtL, ih]

theorem strLtL_trans {a b c : List Char} (hab : strLtL a b = true)
    (hbc : strLtL b c = true) : strLtL a c = true := by
  induction a generalizing b c with
  | nil =>
    cases b with
    | nil => simp [strLtL] at hab
    | cons y ys =>
      cases c with
      | nil => simp [strLtL] at hbc
      | cons z zs => simp [strLtL]
  | cons x xs ih =>
    cases b with
    | nil => simp [strLtL] at hab
    | cons y ys =>
      cases c with
      | nil => simp [strLtL] at hbc
      | cons z zs =>
        simp only [strLtL] at hab hbc ⊢
        by_cases hxy : x = y
        · subst hxy
          by_cases hyz : x = z
          · subst hyz
            simp only [if_pos rfl] at hab hbc ⊢
            exact ih (by simpa using hab) (by simpa using hbc)
          · simp only [if_neg hyz] at hbc ⊢
            simpa using hbc
        · by_cases hyz : y = z
          · subst hyz
            simp only [if_neg hxy] at hab ⊢
            simpa using hab
          · simp only [if_neg hxy] at hab
            simp only [if_neg hyz] at hbc
            have hxz : x < z := lt_trans (by simpa using hab) (by simpa using hbc)
            have hne : x ≠ z := ne_of_lt hxz
            simp [if_neg hne, hxz]

theorem strLtL_total {a b : List Char} (h : a ≠ b) :
    strLtL a b = true ∨ strLtL b a = true := by
  induction a generalizing b with
  | nil =>
    cases b with
    | nil => exact absurd rfl h
    | cons y ys => left; simp [strLtL]
  | cons x xs ih =>
    cases b with
    | nil => right; simp [strLtL]
    | cons y ys =>
      by_cases hxy : x = y
      · subst hxy
        have hne : xs ≠ ys := by
          intro hEq; exact h (by rw [hEq])
        rcases ih hne with h1 | h1
        · left; simp [strLtL, h1]
        · right; simp [strLtL, h1]
      · rcases lt_trichotomy x y with hlt | heq | hgt
        · left; simp [strLtL, if_neg hxy, hlt]
        · exact absurd heq hxy
        · right
          have hyx : y ≠ x := fun hEq => hxy hEq.symm
          simp [strLtL, if_neg hyx, hgt]

theorem strLt_irrefl (s : String) : strLt s s = false :=
  strLtL_irrefl s.data

theorem strLt_trans {a b c : String} (hab : strLt a b = true)
    (hbc : strLt b c = true) : strLt a c = true :=
  strLtL_trans hab hbc

theorem strLt_asymm {a b : String} (hab : strLt a b = true)
    (hba : strLt b a = true) : False := by
  have := strLt_trans hab hba
  rw [strLt_irrefl] at this
  exact Bool.false_ne_true this

theorem strLt_total {a b : String} (h : a ≠ b) :
    strLt a b = true ∨ strLt b a = true := by
  have hd : a.data ≠ b.data := fun hEq => h (by
    cases a; cases b; simp_all)
  exact strLtL_total hd

theorem strLt_ne {a b : String} (hab : strLt a b = true) : a ≠ b := by
  intro hEq
  subst hEq
  rw [strLt_irrefl] at hab
  exact Bool.false_ne_true hab

/-! ### Key-sorted association lists: the model of `BTreeMap<String, V>` -/

/-- The key-order on map entries. -/
def keyLt {α : Type} (a b : String × α) : Prop :=
  strLt a.1 b.1 = true

/-- A key-sorted entry list: the invariant of a `BTreeMap`s entry sequence. -/
def SortedKeys {α : Type} (l : List (String × α)) : Prop :=
  l.Pairwise keyLt

instance {α : Type} : DecidableRel (keyLt (α := α)) := fun a b =>
  decidable_of_iff (strLt a.1 b.1 = true) Iff.rfl

instance {α : Type} : DecidablePred (SortedKeys (α := α)) := fun l =>
  List.instDecidablePairwise l

/-- `BTreeMap::insert`: insert an entry into a key-sorted list, replacing an
entry with an equal key. -/
def insertSorted {α : Type} (k : String) (v : α) :
    List (String × α) → List (String × α)
  | [] => [(k, v)]
  | (k₂, v₂) :: rest =>
    if strLt k k₂ then (k, v) :: (k₂, v₂) :: rest
    else if k = k₂ then (k, v) :: rest
    else (k₂, v₂) :: insertSorted k v rest

/-- `collect::<BTreeMap<_, _>>()`: build the map by inserting entries left to
right (a later entry with an equal key overwrites the earlier one). -/
def btreeOfList {α : Type} (l : List (String × α)) : List (String × α) :=
  l.foldl (fun m kv => insertSorted kv.1 kv.2 m) []

theorem sortedKeys_head {α : Type} {a : String × α} {l : List (String × α)}
    (h : SortedKeys (a :: l)) : ∀ b ∈ l, keyLt a b :=
  (List.pairwise_cons.mp h).1

theorem sortedKeys_tail {α : Type} {a : String × α} {l : List (String × α)}
    (h : SortedKeys (a :: l)) : SortedKeys l :=
  (List.pairwise_cons.mp h).2

theorem mem_insertSorted_sub {α : Type} {k : String} {v : α}
    {m : List (String × α)} {x : String × α} (hx : x ∈ insertSorted k v m) :
    x = (k, v) ∨ x ∈ m := by
  induction m with
  | nil =>
    simp only [insertSorted, List.mem_singleton] at hx
    exact Or.inl hx
  | cons hd tl ih =>
    obtain ⟨k₂, v₂⟩ := hd
    by_cases hlt : strLt k k₂ = true
    · rw [insertSorted, if_pos hlt] at hx
      rcases List.mem_cons.mp hx with hx | hx
      · exact Or.inl hx
      · exact Or.inr hx
    · by_cases heq : k = k₂
      · rw [insertSorted, if_neg hlt, if_pos heq] at hx
        rcases List.mem_cons.mp hx with hx | hx
        · exact Or.inl hx
        · exact Or.inr (List.mem_cons_of_mem _ hx)
      · rw [insertSorted, if_neg hlt, if_neg heq] at hx
        rcases List.mem_cons.mp hx with hx | hx
        · exact Or.inr (hx ▸ List.mem_cons_self _ _)
        · rcases ih hx with hx | hx
          · exact Or.inl hx
          · exact Or.inr (List.mem_cons_of_mem _ hx)

theorem insertSorted_sorted {α : Type} (k : String) (v : α)
    {m : List (String × α)} (hm : SortedKeys m) :
    SortedKeys (insertSorted k v m) := by
  induction m with
  | nil =>
    simp [insertSorted, SortedKeys]
  | cons hd tl ih =>
    obtain ⟨k₂, v₂⟩ := hd
    by_cases hlt : strLt k k₂ = true
    · rw [insertSorted, if_pos hlt]
      refine List.pairwise_cons.mpr ⟨?_, hm⟩
      intro b hb
      rcases List.mem_cons.mp hb with hb | hb
      · rw [hb]; exact hlt
      · exact strLt_trans hlt (sortedKeys_head hm b hb)
    · by_cases heq : k = k₂
      · rw [insertSorted, if_neg hlt, if_pos heq]
        refine List.pairwise_cons.mpr ⟨?_, sortedKeys_tail hm⟩
        intro b hb
        have := sortedKeys_head hm b hb
        simpa [keyLt, heq] using this
      · rw [insertSorted, if_neg hlt, if_neg heq]
        refine List.pairwise_cons.mpr ⟨?_, ih (sortedKeys_tail hm)⟩
        intro b hb
        have hk₂k : strLt k₂ k = true := by
          rcases strLt_total heq with h1 | h1
          · exact absurd h1 hlt
          · exact h1
        rcases mem_insertSorted_sub hb with hb | hb
        · rw [hb]; exact hk₂k
        · exact sortedKeys_head hm b hb

theorem insertSorted_mem {α : Type} (k : String) (v : α)
    {m : List (String × α)} (hm : SortedKeys m) (x : String × α) :
    x ∈ insertSorted k v m ↔ x = (k, v) ∨ (x ∈ m ∧ x.1 ≠ k) := by
  induction m with
  | nil =>
    simp [insertSorted]
  | cons hd tl ih =>
    obtain ⟨k₂, v₂⟩ := hd
    by_cases hlt : strLt k k₂ = true
    · rw [insertSorted, if_pos hlt]
      constructor
      · intro hx
        rcases List.mem_cons.mp hx with hx | hx
        · exact Or.inl hx
        · refine Or.inr ⟨hx, ?_⟩
          rcases List.mem_cons.mp hx with hx2 | hx2
          · rw [hx2]
            exact fun hEq => strLt_ne hlt hEq.symm
          · have hkey : keyLt (k₂, v₂) x := sortedKeys_head hm x hx2
            intro hEq
            exact strLt_asymm hlt (by simpa [keyLt, hEq] using hkey)
      · rintro (hx | ⟨hx, hne⟩)
        · exact hx ▸ List.mem_cons_self _ _
        · exact List.mem_cons_of_mem _ hx
    · by_cases heq : k = k₂
      · rw [insertSorted, if_neg hlt, if_pos heq]
        constructor
        · intro hx
          rcases List.mem_cons.mp hx with hx | hx
          · exact Or.inl hx
          · refine Or.inr ⟨List.mem_cons_of_mem _ hx, ?_⟩
            have hkey : keyLt (k₂, v₂) x := sortedKeys_head hm x hx
            intro hEq
            exact strLt_ne (by simpa [keyLt, hEq, heq] using hkey) rfl
        · rintro (hx | ⟨hx, hne⟩)
          · exact hx ▸ List.mem_cons_self _ _
          · rcases List.mem_cons.mp hx with hx | hx
            · exact absurd (by rw [hx, heq]) hne
            · exact List.mem_cons_of_mem _ hx
      · rw [insertSorted, if_neg hlt, if_neg heq]
        constructor
        · intro hx
          rcases List.mem_cons.mp hx with hx | hx
          · refine Or.inr ⟨hx ▸ List.mem_cons_self _ _, ?_⟩
            rw [hx]
            exact fun hEq => heq hEq.symm
          · rcases (ih (sortedKeys_tail hm)).mp hx with hx | hx
            · exact Or.inl hx
            · exact Or.inr ⟨List.mem_cons_of_mem _ hx.1, hx.2⟩
        · rintro (hx | ⟨hx, hne⟩)
          · exact List.mem_cons_of_mem _
              ((ih (sortedKeys_tail hm)).mpr (Or.inl hx))
          · rcases List.mem_cons.mp hx with hx | hx
            · exact hx ▸ List.mem_cons_self _ _
            · exact List.mem_cons_of_mem _
                ((ih (sortedKeys_tail hm)).mpr (Or.inr ⟨hx, hne⟩))

theorem btreeOfList_sorted {α : Type} (l : List (String × α)) :
    SortedKeys (btreeOfList l) := by
  have gen : ∀ (l : List (String × α)) (acc : List (String × α)),
      SortedKeys acc →
      SortedKeys (l.foldl (fun m kv => insertSorted kv.1 kv.2 m) acc) := by
    intro l
    induction l with
    | nil => intro acc hacc; exact hacc
    | cons hd tl ih =>
      intro acc hacc
      exact ih _ (insertSorted_sorted hd.1 hd.2 hacc)
  exact gen l [] (by simp [SortedKeys])

theorem foldl_insertSorted_mem {α : Type} :
    ∀ (l acc : List (String × α)), SortedKeys acc →
      (l.map Prod.fst).Nodup →
      (∀ j ∈ l.map Prod.fst, j ∉ acc.map Prod.fst) →
      ∀ x, x ∈ l.foldl (fun m kv => insertSorted kv.1 kv.2 m) acc ↔
        x ∈ acc ∨ x ∈ l := by
  intro l
  induction l with
  | nil =>
    intro acc hacc hnd hdisj x
    simp
  | cons hd tl ih =>
    obtain ⟨k, v⟩ := hd
    intro acc hacc hnd hdisj x
    have hknotin : k ∉ tl.map Prod.fst := by
      simp only [List.map_cons, List.nodup_cons] at hnd
      exact hnd.1
    have hndtl : (tl.map Prod.fst).Nodup := by
      simp only [List.map_cons, List.nodup_cons] at hnd
      exact hnd.2
    have hacc' : SortedKeys (insertSorted k v acc) := insertSorted_sorted k v hacc
    have hdisj' : ∀ j ∈ tl.map Prod.fst, j ∉ (insertSorted k v acc).map Prod.fst := by
      intro j hj hmem
      obtain ⟨y, hy, hyj⟩ := List.mem_map.mp hmem
      rcases (insertSorted_mem k v hacc y).mp hy with hy | ⟨hy, hyne⟩
      · have hjk : j = k := by rw [← hyj, hy]
        exact hknotin (hjk ▸ hj)
      · exact hdisj j (List.mem_cons_of_mem _ hj) (hyj ▸ List.mem_map_of_mem _ hy)
    have hknacc : k ∉ acc.map Prod.fst :=
      hdisj k (List.mem_cons_self _ _)
    rw [List.foldl_cons]
    rw [ih (insertSorted k v acc) hacc' hndtl hdisj' x]
    rw [insertSorted_mem k v hacc x]
    constructor
    · rintro ((hx | ⟨hx, hne⟩) | hx)
      · exact Or.inr (hx ▸ List.mem_cons_self _ _)
      · exact Or.inl hx
      · exact Or.inr (List.mem_cons_of_mem _ hx)
    · rintro (hx | hx)
      · refine Or.inl (Or.inr ⟨hx, ?_⟩)
        intro hEq
        exact hknacc (hEq ▸ List.mem_map_of_mem _ hx)
      · rcases List.mem_cons.mp hx with hx | hx
        · exact Or.inl (Or.inl hx)
        · exact Or.inr hx

theorem btreeOfList_mem {α : Type} {l : List (String × α)}
    (hnd : (l.map Prod.fst).Nodup) (x : String × α) :
    x ∈ btreeOfList l ↔ x ∈ l := by
  rw [btreeOfList, foldl_insertSorted_mem l [] (by simp [SortedKeys]) hnd (by simp) x]
  simp

theorem keys_nodup_of_sorted {α : Type} {l : List (String × α)}
    (h : SortedKeys l) : (l.map Prod.fst).Nodup := by
  have hpw : (l.map Prod.fst).Pairwise (fun a b => a ≠ b) :=
    List.pairwise_map.mpr (h.imp fun hk => strLt_ne hk)
  exact hpw

theorem sorted_eq_of_mem_iff {α : Type} :
    ∀ {l₁ l₂ : List (String × α)}, SortedKeys l₁ → SortedKeys l₂ →
      (∀ x, x ∈ l₁ ↔ x ∈ l₂) → l₁ = l₂ := by
  intro l₁
  induction l₁ with
  | nil =>
    intro l₂ h₁ h₂ hmem
    cases l₂ with
    | nil => rfl
    | cons b tl₂ => exact absurd ((hmem b).mpr (List.mem_cons_self _ _)) (by simp)
  | cons a tl₁ ih =>
    intro l₂ h₁ h₂ hmem
    cases l₂ with
    | nil => exact absurd ((hmem a).mp (List.mem_cons_self _ _)) (by simp)
    | cons b tl₂ =>
      have hab : a = b := by
        by_contra hne
        have ha : a ∈ b :: tl₂ := (hmem a).mp (List.mem_cons_self _ _)
        have hb : b ∈ a :: tl₁ := (hmem b).mpr (List.mem_cons_self _ _)
        rcases List.mem_cons.mp ha with ha | ha
        · exact hne ha
        · rcases List.mem_cons.mp hb with hb | hb
          · exact hne hb.symm
          · exact strLt_asymm (sortedKeys_head h₁ b hb) (sortedKeys_head h₂ a ha)
      subst hab
      have htl : tl₁ = tl₂ := by
        refine ih (sortedKeys_tail h₁) (sortedKeys_tail h₂) ?_
        intro x
        constructor
        · intro hx
          have hx₂ : x ∈ a :: tl₂ := (hmem x).mp (List.mem_cons_of_mem _ hx)
          rcases List.mem_cons.mp hx₂ with hx₂ | hx₂
          · exact absurd (sortedKeys_head h₁ x hx)
              (by rw [hx₂, keyLt, strLt_irrefl]; exact Bool.false_ne_true)
          · exact hx₂
        · intro hx
          have hx₁ : x ∈ a :: tl₁ := (hmem x).mpr (List.mem_cons_of_mem _ hx)
          rcases List.mem_cons.mp hx₁ with hx₁ | hx₁
          · exact absurd (sortedKeys_head h₂ x hx)
              (by rw [hx₁, keyLt, strLt_irrefl]; exact Bool.false_ne_true)
          · exact hx₁
      rw [htl]

theorem btreeOfList_perm {α : Type} {l₁ l₂ : List (String × α)}
    (hperm : l₁.Perm l₂) (hnd : (l₁.map Prod.fst).Nodup) :
    btreeOfList l₁ = btreeOfList l₂ := by
  have hnd₂ : (l₂.map Prod.fst).Nodup := (hperm.map Prod.fst).nodup hnd
  refine sorted_eq_of_mem_iff (btreeOfList_sorted l₁) (btreeOfList_sorted l₂) ?_
  intro x
  rw [btreeOfList_mem hnd x, btreeOfList_mem hnd₂ x]
  exact hperm.mem_iff

theorem btreeOfList_of_sorted {α : Type} {l : List (String × α)}
    (h : SortedKeys l) : btreeOfList l = l := by
  refine sorted_eq_of_mem_iff (btreeOfList_sorted l) h ?_
  intro x
  exact btreeOfList_mem (keys_nodup_of_sorted h) x

/-! ### `Purl` and the three-level UUID derivation (`common/src/purl.rs`)

`Uuid::new_v5` of the `uuid` crate is an external SHA-1 based function; the
derivation structure does not depend on it, so the definitions below are
parametrised over an arbitrary `v5 : Uuid → String → Uuid` (the second
argument stands for the byte string fed to the hash; feeding a Rust `&str`s
bytes is modelled by feeding the string itself, and the empty byte string by
`""`). -/

/-- An opaque 128-bit identifier. -/
abbrev Uuid := Nat

/-- The fixed derivation namespace `3738b43d-fd03-4a9d-849c-489bec610f06`
(`NAMESPACE` in `purl.rs`). -/
def NAMESPACE : Uuid := 0x3738b43dfd034a9d849c489bec610f06

/-- The `Purl` struct of `common/src/purl.rs`. The Rust field `namespace` is a
reserved word in Lean and is called `ns` here; `qualifiers` is the
`BTreeMap<String, String>` modelled as its key-sorted entry list. -/
structure Purl where
  ty : String
  ns : Option String
  name : String
  version : Option String
  qualifiers : List (String × String)
deriving DecidableEq

/-- `Purl::with_version`: clone with the passed version. -/
def Purl.with_version (p : Purl) (version : String) : Purl :=
  { p with version := some version }

/-- `Purl::package_uuid`. -/
def Purl.package_uuid (v5 : Uuid → String → Uuid) (p : Purl) : Uuid :=
  let result := v5 NAMESPACE p.ty
  let result := match p.ns with
    | some n => v5 result n
    | none => result
  v5 result p.name

/-- `Purl::then_version_uuid`: the version-level UUID derived from a given
package-level UUID (`version.as_bytes()` with empty bytes when absent). -/
def Purl.then_version_uuid (v5 : Uuid → String → Uuid) (p : Purl)
    (package : Uuid) : Uuid :=
  v5 package (p.version.getD "")

/-- `Purl::version_uuid`. -/
def Purl.version_uuid (v5 : Uuid → String → Uuid) (p : Purl) : Uuid :=
  p.then_version_uuid v5 (p.package_uuid v5)

/-- `Purl::then_qualifier_uuid`: fold the qualifier entries (in the map's key
order) into a given version-level UUID. -/
def Purl.then_qualifier_uuid (v5 : Uuid → String → Uuid) (p : Purl)
    (version : Uuid) : Uuid :=
  p.qualifiers.foldl (fun u kv => v5 (v5 u kv.1) kv.2) version

/-- `Purl::qualifier_uuid`. -/
def Purl.qualifier_uuid (v5 : Uuid → String → Uuid) (p : Purl) : Uuid :=
  p.then_qualifier_uuid v5 (p.version_uuid v5)

/-- `Purl::uuids`: the three-level identity computed in one pass. -/
def Purl.uuids (v5 : Uuid → String → Uuid) (p : Purl) : Uuid × Uuid × Uuid :=
  let package := p.package_uuid v5
  let version := p.then_version_uuid v5 package
  let qualified := p.then_qualifier_uuid v5 version
  (package, version, qualified)

/-- `Purl::to_base`: drop version and qualifiers. -/
def Purl.to_base (p : Purl) : Purl :=
  { ty := p.ty, name := p.name, ns := p.ns, version := none, qualifiers := [] }

/-- `Purl::to_version`: drop qualifiers. -/
def Purl.to_version (p : Purl) : Purl :=
  { ty := p.ty, name := p.name, ns := p.ns, version := p.version,
    qualifiers := [] }

/-- Building a `Purl` from a qualifier sequence in arbitrary insertion order:
the `BTreeMap` is collected from the iterator (as in `From<PackageUrl>` and
`add_qualifier`), so the stored entry list is the key-sorted one. -/
def Purl.ofParts (ty : String) (ns : Option String) (name : String)
    (version : Option String) (qualifiers : List (String × String)) : Purl :=
  { ty := ty, ns := ns, name := name, version := version,
    qualifiers := btreeOfList qualifiers }

/-- **C1.** For every `Purl`, the three-level UUIDs are derived exactly as:
`package_uuid = v5(v5(v5(NS, type), namespace), name)` with the namespace
step skipped when the namespace is absent; `version_uuid = v5(package_uuid,
version bytes or empty bytes when absent)`; `qualifier_uuid` folds
`u ← v5(u, k); u ← v5(u, v)` over the qualifiers in key-sorted order starting
from `version_uuid` (the `BTreeMap` entry list is the key-sorted one).
Consequently two structurally equal `Purl`s — the same type, namespace, name,
version and qualifier set, whatever the qualifier insertion order — yield
identical triples, and `Purl::uuids()` returns the same triple as the three
individual methods. -/
theorem purl_uuid_derivation (v5 : Uuid → String → Uuid) (p : Purl) :
    (p.package_uuid v5 =
      v5 (match p.ns with
          | some n => v5 (v5 NAMESPACE p.ty) n
          | none => v5 NAMESPACE p.ty) p.name) ∧
    (p.version_uuid v5 = v5 (p.package_uuid v5) (p.version.getD "")) ∧
    (p.qualifier_uuid v5 =
      p.qualifiers.foldl (fun u kv => v5 (v5 u kv.1) kv.2) (p.version_uuid v5)) ∧
    (p.uuids v5 = (p.package_uuid v5, p.version_uuid v5, p.qualifier_uuid v5)) ∧
    (∀ (ty : String) (ns : Option String) (name : String)
        (version : Option String) (q₁ q₂ : List (String × String)),
      q₁.Perm q₂ → (q₁.map Prod.fst).Nodup →
      (Purl.ofParts ty ns name version q₁).uuids v5 =
        (Purl.ofParts ty ns name version q₂).uuids v5) := by
  refine ⟨rfl, rfl, rfl, rfl, ?_⟩
  intro ty ns name version q₁ q₂ hperm hnd
  have hq : btreeOfList q₁ = btreeOfList q₂ := btreeOfList_perm hperm hnd
  simp only [Purl.ofParts, Purl.uuids, Purl.package_uuid, Purl.then_version_uuid,
    Purl.then_qualifier_uuid, hq]

/-- Concrete `v5` stand-in used by witnesses. -/
def v5demo : Uuid → String → Uuid := fun u s => 2 * u + s.length + 1

/-- Witness for C1: scenario S1's qualifier pair in the two insertion orders
produces one identical UUID triple. -/
theorem purl_uuid_derivation_witness :
    (Purl.ofParts "rpm" (some "redhat") "filesystem" (some "3.8-6.el8")
      [("tags", "test1"), ("arch", "aarch64")]).uuids v5demo =
    (Purl.ofParts "rpm" (some "redhat") "filesystem" (some "3.8-6.el8")
      [("arch", "aarch64"), ("tags", "test1")]).uuids v5demo :=
  (purl_uuid_derivation v5demo
    (Purl.ofParts "rpm" none "filesystem" none [])).2.2.2.2
    "rpm" (some "redhat") "filesystem" (some "3.8-6.el8")
    [("tags", "test1"), ("arch", "aarch64")]
    [("arch", "aarch64"), ("tags", "test1")]
    (List.Perm.swap _ _ _) (by decide)

/-! ### OSV range translation
(`modules/ingestor/src/service/advisory/osv/loader.rs`)

Database writes (`ingest_package_status`) are modelled as emitting rows; a
call sequence becomes the list of emitted `StatusRow`s, in call order. -/

/-- `osv::schema::Event`, restricted to the variants the loader matches. -/
inductive OsvEvent where
  | introduced (version : String)
  | fixed (version : String)
  | lastAffected (version : String)
  | limit (version : String)
deriving DecidableEq

/-- `graph::advisory::version::Version`. -/
inductive Version where
  | unbounded
  | inclusive (v : String)
  | exclusive (v : String)
deriving DecidableEq

/-- `graph::advisory::version::VersionSpec`. -/
inductive VersionSpec where
  | exact (v : String)
  | range (low high : Version)
deriving DecidableEq

/-- `trustify_entity::version_scheme::VersionScheme` (the variants used by the
loader). -/
inductive VersionScheme where
  | semver | git | maven | python | golang | npm | packagist | nuget | gem
  | hexScheme | swift | pubScheme | generic
deriving DecidableEq

/-- One `ingest_package_status` call: `(status, VersionInfo { scheme, spec })`. -/
structure StatusRow where
  status : String
  scheme : VersionScheme
  spec : VersionSpec
deriving DecidableEq

/-- `events_to_range`: the first `Introduced` event and the first
`Fixed`/`LastAffected` event (`find_map` on each). -/
def events_to_range (events : List OsvEvent) :
    Option String × Option (String × Bool) :=
  (events.findSome? fun e => match e with
    | .introduced v => some v
    | _ => none,
   events.findSome? fun e => match e with
    | .fixed v => some (v, false)
    | .lastAffected v => some (v, true)
    | _ => none)

/-- `create_package_status`: the affected range row (when any) followed by the
fixed exact row (when the end event was `Fixed`). -/
def create_package_status (events : List OsvEvent)
    (version_scheme : VersionScheme) : List StatusRow :=
  let parsed_range := events_to_range events
  let spec : Option VersionSpec := match parsed_range with
    | (some start, none) =>
      some (.range (.inclusive start) .unbounded)
    | (none, some (e, false)) =>
      some (.range .unbounded (.exclusive e))
    | (none, some (e, true)) =>
      some (.range .unbounded (.inclusive e))
    | (some start, some (e, false)) =>
      some (.range (.inclusive start) (.exclusive e))
    | (some start, some (e, true)) =>
      some (.range (.inclusive start) (.inclusive e))
    | (none, none) => none
  (match spec with
   | some sp => [{ status := "affected", scheme := version_scheme, spec := sp }]
   | none => []) ++
  (match parsed_range with
   | (_, some (fixedVersion, false)) =>
     [{ status := "fixed", scheme := version_scheme,
        spec := .exact fixedVersion }]
   | _ => [])

/-- The loop body of `match_versions`: `acc` is the `matches` accumulator. -/
def matchVersionsGo (start : String) (endV : Option String) :
    Option (List String) → List String → Option (List String)
  | acc, [] => acc
  | none, v :: rest =>
    if v = start then matchVersionsGo start endV (some [v]) rest
    else matchVersionsGo start endV none rest
  | some m, v :: rest =>
    match endV with
    | some e =>
      if e = v then some m
      else matchVersionsGo start endV (some (m ++ [v])) rest
    | none => matchVersionsGo start endV (some (m ++ [v])) rest

/-- `match_versions`: the versions from `start` up to the exclusive `end`. -/
def match_versions (versions : List String) (start : String)
    (endV : Option String) : List String :=
  (matchVersionsGo start endV none versions).getD []

/-- `ingest_exact`: one exact row, always in scheme `Generic`. -/
def ingest_exact (status : String) (version : String) : StatusRow :=
  { status := status, scheme := .generic, spec := .exact version }

/-- `ingest_range_from`: an exact affected row for every matched version. -/
def ingest_range_from (status : String) (start : String)
    (endV : Option String) (versions : List String) : List StatusRow :=
  (match_versions versions start endV).map (ingest_exact status)

/-- The event loop of `create_package_status_versions`, with the pending
`start` as explicit state. On `Fixed`/`LastAffected` the range (when a start
is pending) is ingested and then — for both variants — a `fixed` exact row. -/
def statusVersionsGo (versions : List String) :
    Option String → List OsvEvent → List StatusRow
  | start?, [] =>
    match start? with
    | some s => ingest_range_from "affected" s none versions
    | none => []
  | start?, e :: rest =>
    match e with
    | .introduced v => statusVersionsGo versions (some v) rest
    | .fixed v =>
      (match start? with
       | some s => ingest_range_from "affected" s (some v) versions
       | none => []) ++
      [ingest_exact "fixed" v] ++ statusVersionsGo versions none rest
    | .lastAffected v =>
      (match start? with
       | some s => ingest_range_from "affected" s (some v) versions
       | none => []) ++
      [ingest_exact "fixed" v] ++ statusVersionsGo versions none rest
    | .limit _ => statusVersionsGo versions start? rest

/-- `create_package_status_versions`: the enumerated-versions fallback. -/
def create_package_status_versions (events : List OsvEvent)
    (versions : List String) : List StatusRow :=
  statusVersionsGo versions none events

/-- **C5 (counterexample).** The claim's range-to-spec table makes
`(None, Some(v, false))` produce only the affected row, but the code emits the
`fixed Exact(v)` row whenever the end event was `Fixed`, with or without an
`Introduced` start: `[Fixed "2.0"]` on a Maven range yields the affected row
*plus* a fixed row. -/
theorem create_package_status_no_start_fixed_row :
    create_package_status [.fixed "2.0"] .maven ≠
      [⟨"affected", .maven, .range .unbounded (.exclusive "2.0")⟩] ∧
    create_package_status [.fixed "2.0"] .maven =
      [⟨"affected", .maven, .range .unbounded (.exclusive "2.0")⟩,
       ⟨"fixed", .maven, .exact "2.0"⟩] := by
  constructor
  · decide
  · decide

/-- **C5 (amended).** For every OSV range with a version scheme the event list
is reduced by `events_to_range` to one `Introduced` start and one
`(Fixed|LastAffected)` end, and the emitted rows follow the range-to-spec
table — with a `fixed Exact(v)` row emitted whenever the end event was
`Fixed(v)`, also when the start is absent: `(Some s, None)` gives affected
`Range(Incl s, Unbounded)`; `(None, Some(v,false))` gives affected
`Range(Unbounded, Excl v)` plus fixed `Exact(v)`; `(None, Some(v,true))` gives
affected `Range(Unbounded, Incl v)`; `(Some s, Some(v,false))` gives affected
`Range(Incl s, Excl v)` plus fixed `Exact(v)`; `(Some s, Some(v,true))` gives
affected `Range(Incl s, Incl v)`; `(None, None)` gives nothing. In particular
events `[Introduced "1.0", Fixed "2.0"]` on a Maven range yield exactly one
affected `Range(Incl "1.0", Excl "2.0")` and one fixed `Exact("2.0")`, both in
scheme Maven. -/
theorem create_package_status_table (events : List OsvEvent)
    (scheme : VersionScheme) :
    create_package_status events scheme =
      (match events_to_range events with
       | (some s, none) =>
         [⟨"affected", scheme, .range (.inclusive s) .unbounded⟩]
       | (none, some (v, false)) =>
         [⟨"affected", scheme, .range .unbounded (.exclusive v)⟩,
          ⟨"fixed", scheme, .exact v⟩]
       | (none, some (v, true)) =>
         [⟨"affected", scheme, .range .unbounded (.inclusive v)⟩]
       | (some s, some (v, false)) =>
         [⟨"affected", scheme, .range (.inclusive s) (.exclusive v)⟩,
          ⟨"fixed", scheme, .exact v⟩]
       | (some s, some (v, true)) =>
         [⟨"affected", scheme, .range (.inclusive s) (.inclusive v)⟩]
       | (none, none) => []) ∧
    create_package_status [.introduced "1.0", .fixed "2.0"] .maven =
      [⟨"affected", .maven, .range (.inclusive "1.0") (.exclusive "2.0")⟩,
       ⟨"fixed", .maven, .exact "2.0"⟩] := by
  refine ⟨?_, by decide⟩
  rcases hr : events_to_range events with ⟨s?, e?⟩
  simp only [create_package_status, hr]
  rcases s? with _ | s <;> rcases e? with _ | ⟨v, b⟩
  · rfl
  · cases b <;> rfl
  · rfl
  · cases b <;> rfl

theorem matchVersionsGo_skip {s : String} {endV : Option String}
    {a l : List String} (hs : s ∉ a) :
    matchVersionsGo s endV none (a ++ l) = matchVersionsGo s endV none l := by
  induction a with
  | nil => rfl
  | cons x a ih =>
    have hxs : ¬x = s := fun hEq => hs (hEq ▸ List.mem_cons_self _ _)
    rw [List.cons_append, matchVersionsGo, if_neg hxs]
    exact ih fun hmem => hs (List.mem_cons_of_mem _ hmem)

theorem matchVersionsGo_collect_end {s e : String} {b₁ b₂ : List String}
    (he : e ∉ b₁) :
    ∀ m : List String,
      matchVersionsGo s (some e) (some m) (b₁ ++ e :: b₂) = some (m ++ b₁) := by
  induction b₁ with
  | nil =>
    intro m
    rw [List.nil_append, matchVersionsGo, if_pos rfl, List.append_nil]
  | cons x b₁ ih =>
    intro m
    have hex : ¬e = x := fun hEq => he (hEq ▸ List.mem_cons_self _ _)
    rw [List.cons_append, matchVersionsGo]
    simp only [if_neg hex]
    rw [ih (fun hmem => he (List.mem_cons_of_mem _ hmem)) (m ++ [x])]
    simp

theorem matchVersionsGo_collect_none {s : String} :
    ∀ (l m : List String),
      matchVersionsGo s none (some m) l = some (m ++ l) := by
  intro l
  induction l with
  | nil => intro m; simp [matchVersionsGo]
  | cons x l ih =>
    intro m
    rw [matchVersionsGo, ih (m ++ [x])]
    simp

/-- **C6 (counterexample).** The claim says a `LastAffected(v)` event ends
collection *without* producing a fixed row, but the loop arm
`Event::Fixed(version) | Event::LastAffected(version)` ingests the
`fixed Exact(v)` row for both variants: events
`[Introduced "a", LastAffected "b"]` over versions `["a", "b"]` emit a fixed
row for `"b"`. -/
theorem create_package_status_versions_last_affected_fixed_row :
    create_package_status_versions
      [.introduced "a", .lastAffected "b"] ["a", "b"] =
      [ingest_exact "affected" "a", ingest_exact "fixed" "b"] ∧
    (create_package_status_versions
      [.introduced "a", .lastAffected "b"] ["a", "b"]).filter
        (fun r => r.status = "fixed") ≠ [] := by
  constructor
  · decide
  · decide

/-- **C6 (amended).** In the enumerated-versions fallback, scanning starts at
`Introduced(start)`; the versions from `start` up to but excluding the next
`Fixed(v)` or `LastAffected(v)` are each emitted as an `Exact` row with status
affected; and a `fixed Exact(v)` row is additionally emitted for *both* a
`Fixed(v)` and a `LastAffected(v)` event (either event ends collection and
produces the fixed row). -/
theorem create_package_status_versions_spec (versions : List String)
    (s e : String) (rest : List OsvEvent) :
    (create_package_status_versions (.introduced s :: .fixed e :: rest)
        versions =
      (match_versions versions s (some e)).map (ingest_exact "affected") ++
        ingest_exact "fixed" e :: create_package_status_versions rest
          versions) ∧
    (create_package_status_versions (.introduced s :: .lastAffected e :: rest)
        versions =
      (match_versions versions s (some e)).map (ingest_exact "affected") ++
        ingest_exact "fixed" e :: create_package_status_versions rest
          versions) ∧
    (∀ a b₁ b₂ : List String, s ∉ a → e ∉ s :: b₁ →
      match_versions (a ++ s :: b₁ ++ e :: b₂) s (some e) = s :: b₁) ∧
    (∀ a b : List String, s ∉ a →
      match_versions (a ++ s :: b) s none = s :: b) := by
  refine ⟨?_, ?_, ?_, ?_⟩
  · simp [create_package_status_versions, statusVersionsGo, ingest_range_from]
  · simp [create_package_status_versions, statusVersionsGo, ingest_range_from]
  · intro a b₁ b₂ ha he
    have hes : ¬e = s := fun hEq => he (hEq ▸ List.mem_cons_self _ _)
    have heb : e ∉ b₁ := fun hmem => he (List.mem_cons_of_mem _ hmem)
    rw [match_versions, List.append_assoc, List.cons_append,
      matchVersionsGo_skip ha, matchVersionsGo, if_pos rfl,
      matchVersionsGo_collect_end heb [s]]
    rfl
  · intro a b ha
    rw [match_versions, matchVersionsGo_skip ha, matchVersionsGo, if_pos rfl,
      matchVersionsGo_collect_none b [s]]
    rfl

/-- Witness for the amended C6: the scan/collection clauses at the Rust test
inputs (`start="b"`, `end="d"` over `a…g` gives `["b","c"]`; `start="e"` with
no end gives the tail `["e","f","g"]`). -/
theorem create_package_status_versions_spec_witness :
    match_versions ["a", "b", "c", "d", "e", "f", "g"] "b" (some "d") =
      ["b", "c"] ∧
    match_versions ["a", "b", "c", "d", "e", "f", "g"] "e" none =
      ["e", "f", "g"] := by
  constructor
  · exact (create_package_status_versions_spec
      ["a", "b", "c", "d", "e", "f", "g"] "b" "d" []).2.2.1
      ["a"] ["c"] ["e", "f", "g"] (by decide) (by decide)
  · exact (create_package_status_versions_spec
      ["a", "b", "c", "d", "e", "f", "g"] "e" "?" []).2.2.2
      ["a", "b", "c", "d"] ["f", "g"] (by decide)

/-! ### Character-level string splitting

Rust's `str::split(sep)` (and the PURL component separators modelled later)
split on every occurrence of a separator character, keeping empty segments;
`String.split` of the Lean core library is not kernel-reducible, so the
development carries its own structurally recursive split. -/

/-- Split a character list on every occurrence of `t` (empty segments kept;
the result is always non-empty). -/
def splitOnChar (t : Char) : List Char → List (List Char)
  | [] => [[]]
  | c :: rest =>
    if c = t then [] :: splitOnChar t rest
    else
      match splitOnChar t rest with
      | [] => [[c]]
      | seg :: segs => (c :: seg) :: segs

/-- `str::split` on a single separator character. -/
def splitString (t : Char) (s : String) : List String :=
  (splitOnChar t s.data).map fun cs => ⟨cs⟩

/-! ### Scope mapping (`common/auth/src/authenticator/mod.rs`)

`HashMap<String, Vec<String>>` is only read through `get`, so it is modelled
as an association list queried with `List.lookup`. -/

/-- `AuthenticatorClient::map_scopes`: split the scope string on spaces and
flat-map each scope through the mapping table, falling back to the scope
itself when unmapped. -/
def map_scopes (scopes : String)
    (scope_mappings : List (String × List String)) : List String :=
  (splitString ' ' scopes).flatMap fun scope =>
    match scope_mappings.lookup scope with
    | some permissions => permissions
    | none => [scope]

/-- **C7.** `map_scopes` splits the scopes on spaces and, preserving input
order, replaces each mapped scope by its (possibly empty) permission list and
passes every unmapped scope through unchanged; in particular scopes
`"foo bar baz"` with mappings `{foo → [read:foo, read:bar], baz → []}`
produce exactly `["read:foo", "read:bar", "bar"]`. -/
theorem flatMap_lookup_none {l : List String} {m : List (String × List String)}
    (h : ∀ s ∈ l, m.lookup s = none) :
    (l.flatMap fun scope =>
      match m.lookup scope with
      | some permissions => permissions
      | none => [scope]) = l := by
  induction l with
  | nil => rfl
  | cons x l ih =>
    rw [List.flatMap_cons, h x (List.mem_cons_self _ _),
      ih fun s hs => h s (List.mem_cons_of_mem _ hs)]
    rfl

theorem map_scopes_spec (scopes : String)
    (scope_mappings : List (String × List String)) :
    (map_scopes "foo bar baz"
        [("foo", ["read:foo", "read:bar"]), ("baz", [])] =
      ["read:foo", "read:bar", "bar"]) ∧
    (map_scopes scopes scope_mappings =
      ((splitString ' ' scopes).map fun scope =>
        match scope_mappings.lookup scope with
        | some permissions => permissions
        | none => [scope]).flatten) ∧
    ((∀ scope ∈ splitString ' ' scopes, scope_mappings.lookup scope = none) →
      map_scopes scopes scope_mappings = splitString ' ' scopes) := by
  refine ⟨by decide, rfl, ?_⟩
  intro hnone
  exact flatMap_lookup_none hnone

/-- Witness for C7: with an empty mapping table every scope passes through
unchanged. -/
theorem map_scopes_spec_witness :
    map_scopes "foo bar baz" [] = ["foo", "bar", "baz"] :=
  ((map_scopes_spec "foo bar baz" []).2.2 (by decide)).trans (by decide)

/-! ### CVSS3 severity ingestion (`OsvLoader::load`, loader.rs lines 101–113)

For each severity entry of type `CVSSv3` the loader parses
`Cvss3Base::from_str(&severity.score)`; a success is ingested as a `Cvss3`
row, a failure is pushed to the `Warnings` sink as
`"Unable to parse CVSS3: {err}"` (no `?`: the loop, the transaction and the
whole load continue). `Cvss3Base::from_str` lives in the external
`trustify_cvss` crate, so the loop is parametrised over the parser; the
returned `IngestResult.warnings` is the sink's content. -/

/-- `osv::schema::SeverityType`. -/
inductive SeverityType where
  | cvssV2 | cvssV3 | cvssV4
deriving DecidableEq

/-- One `osv::schema::Severity` entry (`score` holds the vector string). -/
structure OsvSeverity where
  severity_type : SeverityType
  score : String
deriving DecidableEq

/-- An ingested CVSS3 row, identified by its parsed vector. -/
abbrev Cvss3 := String

/-- The severity loop of `OsvLoader::load`: the `Cvss3` rows ingested and the
warnings accumulated, in input order. -/
def ingest_cvss3_severities (parse : String → Except String Cvss3)
    (severities : List OsvSeverity) : List Cvss3 × List String :=
  severities.foldl
    (fun acc severity =>
      match severity.severity_type with
      | .cvssV3 =>
        match parse severity.score with
        | .ok cvss3 => (acc.1 ++ [cvss3], acc.2)
        | .error err => (acc.1, acc.2 ++ ["Unable to parse CVSS3: " ++ err])
      | _ => acc)
    ([], [])

theorem ingest_cvss3_severities_foldl (parse : String → Except String Cvss3)
    (severities : List OsvSeverity) (acc : List Cvss3 × List String) :
    severities.foldl
      (fun acc severity =>
        match severity.severity_type with
        | .cvssV3 =>
          match parse severity.score with
          | .ok cvss3 => (acc.1 ++ [cvss3], acc.2)
          | .error err => (acc.1, acc.2 ++ ["Unable to parse CVSS3: " ++ err])
        | _ => acc)
      acc =
    (acc.1 ++ (severities.filterMap fun severity =>
        match severity.severity_type with
        | .cvssV3 => (parse severity.score).toOption
        | _ => none),
     acc.2 ++ (severities.filterMap fun severity =>
        match severity.severity_type with
        | .cvssV3 =>
          match parse severity.score with
          | .ok _ => none
          | .error err => some ("Unable to parse CVSS3: " ++ err)
        | _ => none)) := by
  induction severities generalizing acc with
  | nil => simp
  | cons s rest ih =>
    rw [List.foldl_cons, ih]
    cases hty : s.severity_type <;>
      simp [List.filterMap_cons, hty]
    cases hp : parse s.score <;> simp [Except.toOption]

/-- **C9.** During OSV ingest, every severity entry of type CVSSv3 whose
vector fails to parse contributes exactly one warning
`"Unable to parse CVSS3: {err}"` to the `Warnings` sink returned with the
ingest result and no `Cvss3` row, and the loop keeps processing the remaining
entries (the ingest never aborts on a parse failure); an entry whose vector
parses contributes exactly one `Cvss3` row and no warning. -/
theorem ingest_cvss3_warnings (parse : String → Except String Cvss3)
    (severities : List OsvSeverity) :
    (ingest_cvss3_severities parse severities =
      (severities.filterMap fun severity =>
        match severity.severity_type with
        | .cvssV3 => (parse severity.score).toOption
        | _ => none,
       severities.filterMap fun severity =>
        match severity.severity_type with
        | .cvssV3 =>
          match parse severity.score with
          | .ok _ => none
          | .error err => some ("Unable to parse CVSS3: " ++ err)
        | _ => none)) ∧
    (∀ pre post s err, severities = pre ++ s :: post →
      s.severity_type = .cvssV3 → parse s.score = .error err →
      ingest_cvss3_severities parse severities =
        ((ingest_cvss3_severities parse pre).1 ++
          (ingest_cvss3_severities parse post).1,
         (ingest_cvss3_severities parse pre).2 ++
          ("Unable to parse CVSS3: " ++ err) ::
            (ingest_cvss3_severities parse post).2)) := by
  have hchar : ∀ l, ingest_cvss3_severities parse l =
      (l.filterMap fun severity =>
        match severity.severity_type with
        | .cvssV3 => (parse severity.score).toOption
        | _ => none,
       l.filterMap fun severity =>
        match severity.severity_type with
        | .cvssV3 =>
          match parse severity.score with
          | .ok _ => none
          | .error err => some ("Unable to parse CVSS3: " ++ err)
        | _ => none) := by
    intro l
    rw [ingest_cvss3_severities, ingest_cvss3_severities_foldl]
    simp
  refine ⟨hchar severities, ?_⟩
  intro pre post s err hsplit hty hp
  subst hsplit
  rw [hchar (pre ++ s :: post), hchar pre, hchar post]
  simp [List.filterMap_append, List.filterMap_cons, hty, hp, Except.toOption]

/-- Concrete CVSS3 parser stand-in used by witnesses. -/
def demoParse : String → Except String Cvss3 := fun s =>
  if s = "good" then .ok s else .error "bad"

/-- Witness for C9: one good vector, one bad vector and one non-CVSSv3 entry
yield one row and one warning, with the entries after the failure still
processed. -/
theorem ingest_cvss3_warnings_witness :
    ingest_cvss3_severities demoParse
      [⟨.cvssV3, "good"⟩, ⟨.cvssV3, "zzz"⟩, ⟨.cvssV2, "x"⟩, ⟨.cvssV3, "good"⟩] =
      (["good", "good"], ["Unable to parse CVSS3: bad"]) :=
  ((ingest_cvss3_warnings demoParse
      [⟨.cvssV3, "good"⟩, ⟨.cvssV3, "zzz"⟩, ⟨.cvssV2, "x"⟩, ⟨.cvssV3, "good"⟩]).2
    [⟨.cvssV3, "good"⟩] [⟨.cvssV2, "x"⟩, ⟨.cvssV3, "good"⟩]
    ⟨.cvssV3, "zzz"⟩ "bad" rfl rfl rfl).trans (by decide)

/-! ### The columns registry (`common/src/db/query/columns.rs`) -/

/-- `sea_query::ColumnRef`, restricted to the variants the registry builds and
matches (`IntoIdentity` of a plain string gives `Column`). -/
inductive ColumnRef where
  | column (name : String)
  | tableColumn (table : String) (name : String)
  | schemaTableColumn (schema : String) (table : String) (name : String)
deriving DecidableEq

/-- `sea_orm::ColumnType`, restricted to the shapes `columns.rs` matches on
(every other type behaves like `other`). -/
inductive ColumnType where
  | text
  | string (len : Option Nat)
  | integer
  | decimal
  | json
  | jsonBinary
  | enumType (name : String) (variants : List String)
  | other
deriving DecidableEq

/-- A `sea_query::SimpleExpr` added through `add_expr` (opaque to the
registry; `custom` stands for an arbitrary SQL expression). -/
inductive SimpleExpr where
  | column (r : ColumnRef)
  | custom (tag : String)
deriving DecidableEq

/-- `sea_query::Expr` as constructed by the registry: `Expr::col`,
`Expr::expr` and `.cast_json_field` (the postgres `->>` projection). -/
inductive Expr where
  | col (r : ColumnRef)
  | expr (e : SimpleExpr)
  | jsonField (base : Expr) (field : String)
deriving DecidableEq

/-- `Error::SearchSyntax` of the query module (constructor renamed, message
kept verbatim). -/
inductive QueryError where
  | searchSyntaxErr (msg : String)
deriving DecidableEq

/-- A single-quote character, kept out of string literals. -/
def sq : String := ⟨[Char.ofNat 39]⟩

/-- ASCII lower-casing of one character. -/
def asciiLower (c : Char) : Char :=
  if 65 ≤ c.toNat ∧ c.toNat ≤ 90 then Char.ofNat (c.toNat + 32) else c

/-- `str::eq_ignore_ascii_case`. -/
def eqIgnoreAsciiCase (a b : String) : Bool :=
  a.data.map asciiLower = b.data.map asciiLower

/-- The `Columns` registry. `json_keys` and `exprs` are `BTreeMap`s (modelled
as key-sorted entry lists); the translator is an optional function
`(field, op, value) → Option<String>`. -/
structure Columns where
  columns : List (ColumnRef × ColumnType)
  translator : Option (String → String → String → Option String)
  json_keys : List (String × String)
  exprs : List (String × (Expr × ColumnType))

/-- `Columns::default()`. -/
def Columns.default : Columns := ⟨[], none, [], []⟩

/-- `Columns::add_column` (a plain name becomes `ColumnRef::Column`). -/
def Columns.add_column (c : Columns) (name : String) (ty : ColumnType) :
    Columns :=
  { c with columns := c.columns ++ [(ColumnRef.column name, ty)] }

/-- `Columns::add_expr` (stores `Expr::expr(expr)`). -/
def Columns.add_expr (c : Columns) (name : String) (expr : SimpleExpr)
    (ty : ColumnType) : Columns :=
  { c with exprs := insertSorted name (Expr.expr expr, ty) c.exprs }

/-- `Columns::json_keys`: declare `fields` as the nested keys of `column`. -/
def Columns.declare_json_keys (c : Columns) (column : String)
    (fields : List String) : Columns :=
  { c with json_keys :=
      (fields.foldl (fun m f => insertSorted f column m) c.json_keys) }

/-- `Columns::translator`: register the translator. -/
def Columns.with_translator (c : Columns)
    (f : String → String → String → Option String) : Columns :=
  { c with translator := some f }

/-- `Columns::alias`: rename the table component of every matching
`TableColumn` (case-insensitive). -/
def Columns.alias_table (c : Columns) (src : String) (dst : String) :
    Columns :=
  { c with columns := c.columns.map fun rd =>
      match rd with
      | (.tableColumn t col, d) =>
        if eqIgnoreAsciiCase t src then (.tableColumn dst col, d) else rd
      | _ => rd }

/-- The `name_match` predicate of `for_field`: the ref's column name matches
the target case-insensitively. -/
def name_match (tgt : String) (entry : ColumnRef × ColumnType) : Bool :=
  match entry.1 with
  | .column name => eqIgnoreAsciiCase name tgt
  | .tableColumn _ name => eqIgnoreAsciiCase name tgt
  | .schemaTableColumn _ _ name => eqIgnoreAsciiCase name tgt

/-- Is the column type a declared JSON/JSONB one? -/
def isJsonType : ColumnType → Bool
  | .json => true
  | .jsonBinary => true
  | _ => false

/-- Is the column type string-ish (`String(_) | Text`)? -/
def isStringish : ColumnType → Bool
  | .string _ => true
  | .text => true
  | _ => false

/-- `Columns::strings`: the string-ish column refs, then the string-ish added
expressions, then every declared JSON-key projection (over a bare column
ref). -/
def Columns.strings (c : Columns) : List Expr :=
  (c.columns.filterMap fun rd =>
    if isStringish rd.2 then some (Expr.col rd.1) else none) ++
  (c.exprs.filterMap fun nv =>
    if isStringish nv.2.2 then some nv.2.1 else none) ++
  (c.json_keys.map fun fc =>
    Expr.jsonField (Expr.col (.column fc.2)) fc.1)

/-- `Columns::for_field`: added expressions, then real columns by
case-insensitive name, then JSON-key projection into a declared JSON/JSONB
column; otherwise `SearchSyntax(Invalid field name: ...)`. -/
def Columns.for_field (c : Columns) (field : String) :
    Except QueryError (Expr × ColumnType) :=
  match c.exprs.lookup field with
  | some v => .ok v
  | none =>
    match c.columns.find? (name_match field) with
    | some rd => .ok (Expr.col rd.1, rd.2)
    | none =>
      match
        (match c.json_keys.lookup field with
         | some target =>
           (c.columns.filter fun (rd : ColumnRef × ColumnType) =>
               isJsonType rd.2).find? (name_match target)
         | none => none) with
      | some rd => .ok (Expr.jsonField (Expr.col rd.1) field, rd.2)
      | none =>
        .error (.searchSyntaxErr ("Invalid field name: " ++ sq ++ field ++ sq))

/-- `Columns::translate`. -/
def Columns.translate (c : Columns) (field op value : String) :
    Option String :=
  match c.translator with
  | none => none
  | some f => f field op value

/-- **C3.** `Columns::for_field` resolves in the order: added expressions
first (taking precedence over a same-named real column), then real columns by
case-insensitive name match, then JSON-key projection into a declared
JSON/JSONB column; a field matching none of these fails with
`SearchSyntax(Invalid field name: ...)`. -/
theorem for_field_resolution (c : Columns) (field : String) :
    (∀ v, c.exprs.lookup field = some v → c.for_field field = .ok v) ∧
    (c.exprs.lookup field = none →
      ∀ rd, c.columns.find? (name_match field) = some rd →
        c.for_field field = .ok (Expr.col rd.1, rd.2)) ∧
    (c.exprs.lookup field = none →
      c.columns.find? (name_match field) = none →
      ∀ target rd, c.json_keys.lookup field = some target →
        (c.columns.filter fun (rd : ColumnRef × ColumnType) =>
          isJsonType rd.2).find? (name_match target) = some rd →
        c.for_field field = .ok (Expr.jsonField (Expr.col rd.1) field, rd.2)) ∧
    (c.exprs.lookup field = none →
      c.columns.find? (name_match field) = none →
      (∀ target, c.json_keys.lookup field = some target →
        (c.columns.filter fun (rd : ColumnRef × ColumnType) =>
          isJsonType rd.2).find? (name_match target) = none) →
      c.for_field field =
        .error (.searchSyntaxErr
          ("Invalid field name: " ++ sq ++ field ++ sq))) := by
  refine ⟨?_, ?_, ?_, ?_⟩
  · intro v hv
    simp [Columns.for_field, hv]
  · intro h₀ rd h₁
    simp [Columns.for_field, h₀, h₁]
  · intro h₀ h₁ target rd h₂ h₃
    simp [Columns.for_field, h₀, h₁, h₂, h₃]
  · intro h₀ h₁ h₂
    rcases hk : c.json_keys.lookup field with _ | target
    · simp [Columns.for_field, h₀, h₁, hk]
    · simp [Columns.for_field, h₀, h₁, hk, h₂ target hk]

/-- A registry exercising all four `for_field` branches: a real `Title`
column, a JSON `purl` column with declared key `name`, and an added `title`
expression shadowing the real column. -/
def demoColumns : Columns :=
  ((((Columns.default.add_column "Title" .text).add_column "purl"
    .json).add_expr "title" (.custom "upper_title") .text).declare_json_keys
    "purl" ["name"])

/-- Witness for C3: on `demoColumns`, the added expression wins over the
same-named real column, `TITLE` matches the real column case-insensitively,
`name` projects into the JSON `purl` column, and `nope` fails with the
`Invalid field name` error. -/
theorem for_field_resolution_witness :
    demoColumns.for_field "title" =
      .ok (Expr.expr (.custom "upper_title"), .text) ∧
    demoColumns.for_field "TITLE" =
      .ok (Expr.col (.column "Title"), .text) ∧
    demoColumns.for_field "name" =
      .ok (Expr.jsonField (Expr.col (.column "purl")) "name", .json) ∧
    demoColumns.for_field "nope" =
      .error (.searchSyntaxErr ("Invalid field name: " ++ sq ++ "nope" ++ sq)) := by
  refine ⟨?_, ?_, ?_, ?_⟩
  · exact (for_field_resolution demoColumns "title").1
      (Expr.expr (.custom "upper_title"), .text) rfl
  · exact (for_field_resolution demoColumns "TITLE").2.1 rfl
      (ColumnRef.column "Title", .text) rfl
  · exact (for_field_resolution demoColumns "name").2.2.1 rfl rfl "purl"
      (ColumnRef.column "purl", .json) rfl rfl
  · exact (for_field_resolution demoColumns "nope").2.2.2 rfl rfl
      (fun target ht => nomatch ht)

/-- The string-ish set as C4's text words it: the real `String`/`Text`
columns plus the declared JSON-key projections — and nothing else. -/
def strings_per_claim (c : Columns) : List Expr :=
  (c.columns.filterMap fun rd =>
    if isStringish rd.2 then some (Expr.col rd.1) else none) ++
  (c.json_keys.map fun fc =>
    Expr.jsonField (Expr.col (.column fc.2)) fc.1)

/-- **C4 (counterexample).** `Columns::strings` also chains the added
expressions of `String`/`Text` type: a registry holding one `Text`-typed
added expression has that expression in its string-ish set, while the claim's
set is empty. -/
theorem columns_strings_includes_added_exprs :
    (Columns.default.add_expr "len" (.custom "char_length") .text).strings ≠
      strings_per_claim
        (Columns.default.add_expr "len" (.custom "char_length") .text) ∧
    (Columns.default.add_expr "len" (.custom "char_length") .text).strings =
      [Expr.expr (.custom "char_length")] ∧
    strings_per_claim
        (Columns.default.add_expr "len" (.custom "char_length") .text) =
      [] := by
  refine ⟨by decide, by decide, by decide⟩

/-- **C4 (amended).** The set of expressions a free-text atom is OR-ed across
(`Columns::strings`) is exactly the real columns of `String`/`Text` type,
plus the `String`/`Text`-typed added expressions, plus every declared
JSON-key projection — no more and no fewer. -/
theorem columns_strings_exact (c : Columns) :
    (c.strings =
      (c.columns.filterMap fun rd =>
        if isStringish rd.2 then some (Expr.col rd.1) else none) ++
      (c.exprs.filterMap fun nv =>
        if isStringish nv.2.2 then some nv.2.1 else none) ++
      (c.json_keys.map fun fc =>
        Expr.jsonField (Expr.col (.column fc.2)) fc.1)) ∧
    (∀ e, e ∈ c.strings ↔
      ((∃ rd, rd ∈ c.columns ∧ isStringish rd.2 = true ∧ e = Expr.col rd.1) ∨
       (∃ nv, nv ∈ c.exprs ∧ isStringish nv.2.2 = true ∧ e = nv.2.1) ∨
       (∃ fc, fc ∈ c.json_keys ∧
         e = Expr.jsonField (Expr.col (.column fc.2)) fc.1))) := by
  refine ⟨rfl, ?_⟩
  intro e
  simp only [Columns.strings, List.mem_append, List.mem_filterMap,
    List.mem_map]
  constructor
  · rintro ((⟨rd, hrd, hsome⟩ | ⟨nv, hnv, hsome⟩) | ⟨fc, hfc, heq⟩)
    · by_cases hs : isStringish rd.2 = true
      · rw [if_pos hs] at hsome
        exact Or.inl ⟨rd, hrd, hs, (Option.some.inj hsome).symm⟩
      · rw [if_neg hs] at hsome
        cases hsome
    · by_cases hs : isStringish nv.2.2 = true
      · rw [if_pos hs] at hsome
        exact Or.inr (Or.inl ⟨nv, hnv, hs, (Option.some.inj hsome).symm⟩)
      · rw [if_neg hs] at hsome
        cases hsome
    · exact Or.inr (Or.inr ⟨fc, hfc, heq.symm⟩)
  · rintro (⟨rd, hrd, hs, he⟩ | ⟨nv, hnv, hs, he⟩ | ⟨fc, hfc, he⟩)
    · exact Or.inl (Or.inl ⟨rd, hrd, by rw [if_pos hs, he]⟩)
    · exact Or.inl (Or.inr ⟨nv, hnv, by rw [if_pos hs, he]⟩)
    · exact Or.inr ⟨fc, hfc, he.symm⟩

/-! ### `fetch_advisories` sort translation
(`modules/fundamental/src/advisory/service/mod.rs`)

The translator closure registered on the columns registry is source code; the
sort half of the query DSL (`Query::sort`, compiled by
`common/src/db/query/mod.rs`, not part of this corpus) and the database's
ORDER BY execution are modelled from the spec. Scores are modelled as `ℚ`. -/

/-- One row of the `fetch_advisories` outer select, reduced to its primary
key and the synthetic `average_score` column. -/
structure AdvisoryRow where
  id : Nat
  average_score : ℚ
deriving DecidableEq

/-- The translator of `fetch_advisories` (source lines 116–120): a sort on
`average_severity` (empty value, the operator slot carrying the sort
direction) becomes the fragment `average_score:<op>`. -/
def advisory_translator (f op v : String) : Option String :=
  match f, v with
  | "average_severity", "" => some ("average_score:" ++ op)
  | _, _ => none

/-- Modelled from the spec (§4.B): a sort clause is `field(:asc|:desc)?`,
default `asc`. -/
def parse_sort_clause (clause : String) : String × String :=
  match splitString ':' clause with
  | [] => ("", "asc")
  | [f] => (f, "asc")
  | f :: d :: _ => (f, d)

/-- Modelled from the spec (§4.B compilation rule 2, applied to sort fields
with an empty value): consult the translator with `(field, direction, "")`;
a returned fragment is re-parsed and substituted at the clause's position. -/
def resolve_sort_clause (t : String → String → String → Option String)
    (clause : String) : String × String :=
  let fd := parse_sort_clause clause
  match t fd.1 fd.2 "" with
  | some fragment => parse_sort_clause fragment
  | none => fd

/-- Modelled from the spec (§4.H): the resolved sort field projects a row
column; only the synthetic `average_score` column takes part here. -/
def sort_key (field : String) (r : AdvisoryRow) : ℚ :=
  match field with
  | "average_score" => r.average_score
  | _ => 0

/-- Modelled from the spec: ORDER BY execution over the fetched rows. -/
def order_rows (fd : String × String) (rows : List AdvisoryRow) :
    List AdvisoryRow :=
  if fd.2 = "desc" then
    rows.mergeSort fun a b =>
      decide (sort_key fd.1 b ≤ sort_key fd.1 a)
  else
    rows.mergeSort fun a b =>
      decide (sort_key fd.1 a ≤ sort_key fd.1 b)

/-- `fetch_advisories`, reduced to its sort behaviour: resolve the sort
clause through the registered translator, then order the rows. -/
def fetch_advisories (sort : String) (rows : List AdvisoryRow) :
    List AdvisoryRow :=
  order_rows (resolve_sort_clause advisory_translator sort) rows

/-- **C8.** `fetch_advisories` registers a translator rewriting a sort on
`average_severity` (operator slot `op`, empty value) into the fragment
`average_score:op`; a query sorted by `average_severity:desc` therefore
orders by the synthetic `average_score` column descending: the result is a
permutation of the rows in non-increasing `average_score` order. -/
theorem fetch_advisories_average_severity_sort :
    (∀ op, advisory_translator "average_severity" op "" =
      some ("average_score:" ++ op)) ∧
    (resolve_sort_clause advisory_translator "average_severity:desc" =
      ("average_score", "desc")) ∧
    (∀ rows, (fetch_advisories "average_severity:desc" rows).Perm rows ∧
      (fetch_advisories "average_severity:desc" rows).Sorted
        (fun a b => b.average_score ≤ a.average_score)) := by
  refine ⟨fun op => rfl, by decide, ?_⟩
  intro rows
  have hres : resolve_sort_clause advisory_translator "average_severity:desc" =
      ("average_score", "desc") := by decide
  constructor
  · rw [fetch_advisories, hres, order_rows]
    exact List.mergeSort_perm rows _
  · rw [fetch_advisories, hres, order_rows]
    simp only [if_pos rfl]
    have hs : List.Pairwise
        (fun a b : AdvisoryRow =>
          (decide (sort_key "average_score" b ≤ sort_key "average_score" a))
            = true)
        (rows.mergeSort fun a b =>
          decide (sort_key "average_score" b ≤ sort_key "average_score" a)) :=
      List.sorted_mergeSort
        (fun a b c hab hbc => by
          simp only [decide_eq_true_eq] at hab hbc ⊢
          exact le_trans hbc hab)
        (fun a b => by
          simp only [Bool.or_eq_true, decide_eq_true_eq]
          exact le_total _ _)
        rows
    exact hs.imp fun hab => by
      simpa [sort_key] using hab

/-! ### `count_related_sboms` (`modules/fundamental/src/sbom/service/sbom.rs`)

The two grouped queries are modelled over the joined reference rows
`(sbom_id, node_id, ref_id)` of `sbom_package_cpe_ref` /
`sbom_package_purl_ref`: `GROUP BY ref_id` with `COUNT(sbom_id)` counts the
matching join rows of each group. -/

/-- A CPE, reduced to its stable UUID (`Cpe::uuid`). -/
structure Cpe where
  uuid : Uuid
deriving DecidableEq

/-- `SbomExternalPackageReference`. -/
inductive SbomExternalPackageReference where
  | cpe (c : Cpe)
  | purl (p : Purl)
deriving DecidableEq

/-- The local `Id` enum of `count_related_sboms`. -/
inductive RefId where
  | cpe (id : Uuid)
  | purl (id : Uuid)
deriving DecidableEq

/-- The reference rows the two queries join over. -/
structure SbomDb where
  cpe_refs : List (Uuid × Uuid × Uuid)
  purl_refs : List (Uuid × Uuid × Uuid)
deriving DecidableEq

/-- One grouped query: filter the rows to the wanted ref ids, group by ref id
and count the rows of each group. -/
def group_counts (rows : List (Uuid × Uuid × Uuid)) (wanted : List Uuid) :
    List (Uuid × Int) :=
  let filtered := rows.filter fun r => wanted.contains r.2.2
  (filtered.map fun r => r.2.2).dedup.map fun id =>
    (id, ((filtered.filter fun r => r.2.2 = id).length : Int))

/-- `SbomService::count_related_sboms`: map the references to ids (CPE by its
UUID, PURL by its qualifier UUID), run the two grouped queries, collect the
counts map, and read it back in input order with default 0. -/
def count_related_sboms (v5 : Uuid → String → Uuid) (db : SbomDb)
    (references : List SbomExternalPackageReference) : List Int :=
  let ids := references.map fun r => match r with
    | .cpe c => RefId.cpe c.uuid
    | .purl p => RefId.purl (p.qualifier_uuid v5)
  let cpes := ids.filterMap fun id => match id with
    | .cpe i => some i
    | _ => none
  let purls := ids.filterMap fun id => match id with
    | .purl i => some i
    | _ => none
  let counts_map : List (RefId × Int) :=
    (group_counts db.cpe_refs cpes).map (fun p => (RefId.cpe p.1, p.2)) ++
    (group_counts db.purl_refs purls).map (fun p => (RefId.purl p.1, p.2))
  ids.map fun id => (counts_map.lookup id).getD 0

/-- The number of distinct SBOMs holding a row for a reference id — what C10
says the result counts. -/
def sboms_containing (rows : List (Uuid × Uuid × Uuid)) (id : Uuid) : Int :=
  (((rows.filter fun r => r.2.2 = id).map fun r => r.1).dedup.length : Int)

/-- `count_related_sboms` as C10 words it: per reference, the number of SBOMs
containing it. -/
def count_related_sboms_per_claim (v5 : Uuid → String → Uuid) (db : SbomDb)
    (references : List SbomExternalPackageReference) : List Int :=
  references.map fun r => match r with
    | .cpe c => sboms_containing db.cpe_refs c.uuid
    | .purl p => sboms_containing db.purl_refs (p.qualifier_uuid v5)

theorem lookup_tag_cpe (l : List (Uuid × Int)) (i : Uuid) :
    List.lookup (RefId.cpe i) (l.map fun p => (RefId.cpe p.1, p.2)) =
      List.lookup i l := by
  induction l with
  | nil => rfl
  | cons p rest ih =>
    by_cases h : i = p.1
    · simp [List.lookup, h]
    · have h1 : (RefId.cpe i == RefId.cpe p.1) = false := by simp [h]
      have h2 : (i == p.1) = false := by simp [h]
      simp [List.lookup, h1, h2, ih]

theorem lookup_tag_purl (l : List (Uuid × Int)) (i : Uuid) :
    List.lookup (RefId.purl i) (l.map fun p => (RefId.purl p.1, p.2)) =
      List.lookup i l := by
  induction l with
  | nil => rfl
  | cons p rest ih =>
    by_cases h : i = p.1
    · simp [List.lookup, h]
    · have h1 : (RefId.purl i == RefId.purl p.1) = false := by simp [h]
      have h2 : (i == p.1) = false := by simp [h]
      simp [List.lookup, h1, h2, ih]

theorem lookup_cpe_in_purl_map (l : List (Uuid × Int)) (i : Uuid) :
    List.lookup (RefId.cpe i) (l.map fun p => (RefId.purl p.1, p.2)) =
      none := by
  induction l with
  | nil => rfl
  | cons p rest ih =>
    have h1 : (RefId.cpe i == RefId.purl p.1) = false := by simp
    simp [List.lookup, h1, ih]

theorem lookup_purl_in_cpe_map (l : List (Uuid × Int)) (i : Uuid) :
    List.lookup (RefId.purl i) (l.map fun p => (RefId.cpe p.1, p.2)) =
      none := by
  induction l with
  | nil => rfl
  | cons p rest ih =>
    have h1 : (RefId.purl i == RefId.cpe p.1) = false := by simp
    simp [List.lookup, h1, ih]

theorem lookup_map_self (l : List Uuid) (g : Uuid → Int) (i : Uuid) :
    List.lookup i (l.map fun id => (id, g id)) =
      if i ∈ l then some (g i) else none := by
  induction l with
  | nil => rfl
  | cons x rest ih =>
    by_cases h : i = x
    · subst h
      simp [List.lookup]
    · have hbeq : (i == x) = false := by simp [h]
      simp [List.lookup, hbeq, ih, List.mem_cons, h]

theorem filter_wanted_filter (rows : List (Uuid × Uuid × Uuid))
    (wanted : List Uuid) (i : Uuid) (hi : i ∈ wanted) :
    (rows.filter fun r => wanted.contains r.2.2).filter
        (fun r => r.2.2 = i) =
      rows.filter fun r => r.2.2 = i := by
  rw [List.filter_filter]
  refine List.filter_congr ?_
  intro r hr
  by_cases h : r.2.2 = i
  · simp [h, hi]
  · simp [h]

theorem getD_lookup_group_counts (rows : List (Uuid × Uuid × Uuid))
    (wanted : List Uuid) (i : Uuid) (hi : i ∈ wanted) :
    (List.lookup i (group_counts rows wanted)).getD 0 =
      ((rows.filter fun r => r.2.2 = i).length : Int) := by
  rw [group_counts]
  rw [lookup_map_self]
  by_cases hmem : i ∈
      ((rows.filter fun r => wanted.contains r.2.2).map fun r => r.2.2).dedup
  · rw [if_pos hmem, Option.getD_some]
    rw [filter_wanted_filter rows wanted i hi]
  · rw [if_neg hmem, Option.getD_none]
    have hnil : (rows.filter fun r => r.2.2 = i) = [] := by
      rw [List.filter_eq_nil_iff]
      intro r hr hp
      refine hmem ?_
      rw [List.mem_dedup]
      refine List.mem_map.mpr ⟨r, ?_, by simpa using hp⟩
      refine List.mem_filter.mpr ⟨hr, ?_⟩
      have : r.2.2 = i := by simpa using hp
      rw [this]
      exact List.elem_iff.mpr hi
    rw [hnil]
    rfl

/-- A concrete PURL used by the C10 counterexample. -/
def demoPurl : Purl := Purl.ofParts "rpm" none "x" none []

/-- **C10 (counterexample).** `COUNT(sbom_id)` counts the matching
package-reference rows, not distinct SBOMs: one SBOM holding the same
qualified PURL in two of its packages yields count 2 while only one SBOM
contains the reference. -/
theorem count_related_sboms_duplicate_package :
    count_related_sboms v5demo
        ⟨[], [(1, 10, demoPurl.qualifier_uuid v5demo),
              (1, 11, demoPurl.qualifier_uuid v5demo)]⟩
        [.purl demoPurl] = [2] ∧
    count_related_sboms_per_claim v5demo
        ⟨[], [(1, 10, demoPurl.qualifier_uuid v5demo),
              (1, 11, demoPurl.qualifier_uuid v5demo)]⟩
        [.purl demoPurl] = [1] ∧
    count_related_sboms v5demo
        ⟨[], [(1, 10, demoPurl.qualifier_uuid v5demo),
              (1, 11, demoPurl.qualifier_uuid v5demo)]⟩
        [.purl demoPurl] ≠
      count_related_sboms_per_claim v5demo
        ⟨[], [(1, 10, demoPurl.qualifier_uuid v5demo),
              (1, 11, demoPurl.qualifier_uuid v5demo)]⟩
        [.purl demoPurl] := by
  refine ⟨by decide, by decide, by decide⟩

/-- **C10 (amended).** `count_related_sboms` returns a vector of exactly the
input's length and order, whose i-th element is the number of
package-reference rows matching the i-th reference (a CPE reference by its
CPE UUID, a PURL reference by its qualifier UUID) — the number of SBOMs
containing it when every SBOM references it at most once — and 0 for a
reference appearing in no SBOM. -/
theorem count_related_sboms_rows (v5 : Uuid → String → Uuid) (db : SbomDb)
    (references : List SbomExternalPackageReference) :
    (count_related_sboms v5 db references).length = references.length ∧
    count_related_sboms v5 db references =
      references.map fun r => match r with
        | .cpe c =>
          ((db.cpe_refs.filter fun row => row.2.2 = c.uuid).length : Int)
        | .purl p =>
          ((db.purl_refs.filter fun row =>
            row.2.2 = p.qualifier_uuid v5).length : Int) := by
  have hmain : count_related_sboms v5 db references =
      references.map fun r => match r with
        | .cpe c =>
          ((db.cpe_refs.filter fun row => row.2.2 = c.uuid).length : Int)
        | .purl p =>
          ((db.purl_refs.filter fun row =>
            row.2.2 = p.qualifier_uuid v5).length : Int) := by
    rw [count_related_sboms, List.map_map]
    refine List.map_eq_map_iff.mpr ?_
    intro r hr
    rcases r with c | p
    · have hid : RefId.cpe c.uuid ∈ references.map fun r => match r with
          | .cpe c => RefId.cpe c.uuid
          | .purl p => RefId.purl (p.qualifier_uuid v5) :=
        List.mem_map.mpr ⟨.cpe c, hr, rfl⟩
      have hin : c.uuid ∈ (references.map fun r => match r with
          | .cpe c => RefId.cpe c.uuid
          | .purl p => RefId.purl (p.qualifier_uuid v5)).filterMap
            fun id => match id with
              | .cpe i => some i
              | _ => none :=
        List.mem_filterMap.mpr ⟨RefId.cpe c.uuid, hid, rfl⟩
      simp only [Function.comp]
      rw [List.lookup_append, lookup_tag_cpe, lookup_cpe_in_purl_map]
      rw [Option.or_none]
      exact getD_lookup_group_counts db.cpe_refs _ c.uuid hin
    · have hid : RefId.purl (p.qualifier_uuid v5) ∈
          references.map fun r => match r with
          | .cpe c => RefId.cpe c.uuid
          | .purl p => RefId.purl (p.qualifier_uuid v5) :=
        List.mem_map.mpr ⟨.purl p, hr, rfl⟩
      have hin : p.qualifier_uuid v5 ∈ (references.map fun r => match r with
          | .cpe c => RefId.cpe c.uuid
          | .purl p => RefId.purl (p.qualifier_uuid v5)).filterMap
            fun id => match id with
              | .purl i => some i
              | _ => none :=
        List.mem_filterMap.mpr ⟨RefId.purl (p.qualifier_uuid v5), hid, rfl⟩
      simp only [Function.comp]
      rw [List.lookup_append, lookup_tag_purl, lookup_purl_in_cpe_map]
      rw [Option.none_or]
      exact getD_lookup_group_counts db.purl_refs _ _ hin
  exact ⟨by rw [hmain, List.length_map], hmain⟩

/-! ### The canonical PURL string codec

`Display` and `FromStr` for `Purl` delegate to the external `packageurl`
crate; the codec below is modelled from the PURL specification: components
are percent-encoded (ASCII characters outside the unreserved set), the
namespace is encoded per `/`-separated segment, and parsing splits the
remainder after `pkg:` at the first `?` (qualifiers), then at `@` (version),
then on `/` (type, namespace segments, name). -/

/-- The upper-case hex digit of a nibble. -/
def hexDigitChar (n : Nat) : Char :=
  if n < 10 then Char.ofNat (48 + n) else Char.ofNat (55 + n)

/-- RFC 3986 unreserved characters (kept verbatim by the encoder). -/
def isUnreservedChar (c : Char) : Bool :=
  c.isAlphanum || c = '.' || c = '-' || c = '_' || c = '~'

/-- Percent-encode an ASCII character outside the unreserved set; non-ASCII
characters pass through. -/
def shouldEncode (c : Char) : Bool :=
  decide (c.toNat < 128) && !(isUnreservedChar c)

/-- Encode one character. -/
def encChar (c : Char) : List Char :=
  if shouldEncode c then
    ['%', hexDigitChar (c.toNat / 16), hexDigitChar (c.toNat % 16)]
  else [c]

/-- Percent-encode a character sequence. -/
def pctEncode (s : List Char) : List Char :=
  s.flatMap encChar

/-- The value of a hex digit. -/
def hexVal (c : Char) : Nat :=
  if 48 ≤ c.toNat ∧ c.toNat ≤ 57 then c.toNat - 48
  else if 65 ≤ c.toNat ∧ c.toNat ≤ 70 then c.toNat - 55
  else if 97 ≤ c.toNat ∧ c.toNat ≤ 102 then c.toNat - 87
  else 0

/-- Percent-decode a character sequence (a malformed trailing escape stops
the scan). -/
def pctDecode : List Char → List Char
  | [] => []
  | c :: rest =>
    if c = '%' then
      match rest with
      | h₁ :: h₂ :: rest₂ =>
        Char.ofNat (16 * hexVal h₁ + hexVal h₂) :: pctDecode rest₂
      | [] => [c]
      | [h₁] => [c, h₁]
    else c :: pctDecode rest

theorem hexVal_hexDigitChar : ∀ m, m < 16 → hexVal (hexDigitChar m) = m := by
  decide

theorem shouldEncode_hexDigitChar : ∀ m, m < 16 →
    shouldEncode (hexDigitChar m) = false := by
  decide

theorem pctDecode_encChar (c : Char) (rest : List Char) :
    pctDecode (encChar c ++ rest) = c :: pctDecode rest := by
  by_cases h : shouldEncode c = true
  · have hlt : c.toNat < 128 := by
      have h2 := h
      rw [shouldEncode, Bool.and_eq_true, decide_eq_true_eq] at h2
      exact h2.1
    rw [encChar, if_pos h]
    show pctDecode ('%' :: hexDigitChar (c.toNat / 16) ::
      hexDigitChar (c.toNat % 16) :: rest) = c :: pctDecode rest
    simp only [pctDecode, if_pos rfl]
    rw [hexVal_hexDigitChar (c.toNat / 16) (by omega),
      hexVal_hexDigitChar (c.toNat % 16) (by omega)]
    rw [Nat.div_add_mod c.toNat 16, Char.ofNat_toNat]
    simp
  · rw [encChar, if_neg h]
    have hc : ¬c = '%' := by
      intro hEq
      subst hEq
      exact h (by decide)
    show pctDecode (c :: rest) = c :: pctDecode rest
    rw [pctDecode.eq_def]
    simp only [if_neg hc]

theorem pctDecode_pctEncode_append (s rest : List Char) :
    pctDecode (pctEncode s ++ rest) = s ++ pctDecode rest := by
  induction s with
  | nil => simp [pctEncode]
  | cons c cs ih =>
    have he : pctEncode (c :: cs) = encChar c ++ pctEncode cs := by
      simp [pctEncode]
    rw [he, List.append_assoc, pctDecode_encChar, ih]
    rfl

theorem pctDecode_pctEncode (s : List Char) :
    pctDecode (pctEncode s) = s :=
  ((by rw [List.append_nil] :
      pctDecode (pctEncode s) = pctDecode (pctEncode s ++ [])).trans
    (pctDecode_pctEncode_append s [])).trans
    (by rw [show pctDecode [] = ([] : List Char) from rfl, List.append_nil])

theorem mem_pctEncode {c : Char} {s : List Char} (h : c ∈ pctEncode s) :
    c = '%' ∨ shouldEncode c = false := by
  rw [pctEncode, List.mem_flatMap] at h
  obtain ⟨a, _, hmem⟩ := h
  by_cases ha : shouldEncode a = true
  · rw [encChar, if_pos ha] at hmem
    have hlt : a.toNat < 128 := by
      rw [shouldEncode, Bool.and_eq_true, decide_eq_true_eq] at ha
      exact ha.1
    simp only [List.mem_cons, List.not_mem_nil, or_false] at hmem
    rcases hmem with hmem | hmem | hmem
    · exact Or.inl hmem
    · exact Or.inr (hmem ▸ shouldEncode_hexDigitChar (a.toNat / 16) (by omega))
    · exact Or.inr (hmem ▸ shouldEncode_hexDigitChar (a.toNat % 16) (by omega))
  · rw [encChar, if_neg ha] at hmem
    simp only [List.mem_singleton] at hmem
    exact Or.inr (hmem ▸ Bool.eq_false_iff.mpr ha)

theorem not_mem_pctEncode (t : Char) (h₁ : shouldEncode t = true)
    (h₂ : t ≠ '%') (s : List Char) : t ∉ pctEncode s := by
  intro hmem
  rcases mem_pctEncode hmem with h | h
  · exact h₂ h
  · rw [h₁] at h
    cases h

/-- Split at the first occurrence of `t`: the part before it and, when `t`
occurs, the part after it. -/
def splitFirst (t : Char) : List Char → List Char × Option (List Char)
  | [] => ([], none)
  | c :: rest =>
    if c = t then ([], some rest)
    else ((c :: (splitFirst t rest).1, (splitFirst t rest).2))

theorem splitFirst_not_mem {t : Char} {l : List Char} (h : t ∉ l) :
    splitFirst t l = (l, none) := by
  induction l with
  | nil => rfl
  | cons c rest ih =>
    have hct : ¬c = t := fun hEq => h (by rw [← hEq]; exact List.mem_cons_self _ _)
    rw [splitFirst, if_neg hct, ih fun hm => h (List.mem_cons_of_mem _ hm)]

theorem splitFirst_append {t : Char} {a : List Char} (h : t ∉ a)
    (b : List Char) : splitFirst t (a ++ t :: b) = (a, some b) := by
  induction a with
  | nil => rw [List.nil_append, splitFirst, if_pos rfl]
  | cons c rest ih =>
    have hct : ¬c = t := fun hEq => h (by rw [← hEq]; exact List.mem_cons_self _ _)
    rw [List.cons_append, splitFirst, if_neg hct,
      ih fun hm => h (List.mem_cons_of_mem _ hm)]

theorem splitOnChar_ne_nil (t : Char) (l : List Char) :
    splitOnChar t l ≠ [] := by
  induction l with
  | nil => simp [splitOnChar]
  | cons c rest ih =>
    rw [splitOnChar]
    by_cases h : c = t
    · rw [if_pos h]
      simp
    · rw [if_neg h]
      rcases hr : splitOnChar t rest with _ | ⟨seg, segs⟩
      · simp
      · simp

theorem splitOnChar_not_mem {t : Char} {l : List Char} (h : t ∉ l) :
    splitOnChar t l = [l] := by
  induction l with
  | nil => rfl
  | cons c rest ih =>
    have hct : ¬c = t := fun hEq => h (by rw [← hEq]; exact List.mem_cons_self _ _)
    rw [splitOnChar, if_neg hct, ih fun hm => h (List.mem_cons_of_mem _ hm)]

theorem splitOnChar_append {t : Char} {a : List Char} (h : t ∉ a)
    (b : List Char) :
    splitOnChar t (a ++ t :: b) = a :: splitOnChar t b := by
  induction a with
  | nil => rw [List.nil_append, splitOnChar, if_pos rfl]
  | cons c rest ih =>
    have hct : ¬c = t := fun hEq => h (by rw [← hEq]; exact List.mem_cons_self _ _)
    rw [List.cons_append, splitOnChar, if_neg hct,
      ih fun hm => h (List.mem_cons_of_mem _ hm)]

/-- Join segments with the separator `t` (inverse of `splitOnChar`). -/
def joinChar (t : Char) : List (List Char) → List Char
  | [] => []
  | [s] => s
  | s :: s₂ :: rest => s ++ t :: joinChar t (s₂ :: rest)

theorem joinChar_splitOnChar (t : Char) (l : List Char) :
    joinChar t (splitOnChar t l) = l := by
  induction l with
  | nil => rfl
  | cons c rest ih =>
    rw [splitOnChar]
    by_cases h : c = t
    · rw [if_pos h]
      rcases hr : splitOnChar t rest with _ | ⟨seg, segs⟩
      · exact absurd hr (splitOnChar_ne_nil t rest)
      · rw [hr] at ih
        rw [joinChar, ← ih, h]
        rfl
    · rw [if_neg h]
      rcases hr : splitOnChar t rest with _ | ⟨seg, segs⟩
      · exact absurd hr (splitOnChar_ne_nil t rest)
      · rw [hr] at ih
        cases segs with
        | nil =>
          show c :: seg = c :: rest
          rw [show joinChar t [seg] = seg from rfl] at ih
          rw [ih]
        | cons s₂ rest₂ =>
          show joinChar t ((c :: seg) :: s₂ :: rest₂) = c :: rest
          rw [joinChar, ← ih, joinChar]
          rfl

theorem splitOnChar_join {t : Char} :
    ∀ {segs : List (List Char)}, segs ≠ [] → (∀ s ∈ segs, t ∉ s) →
      splitOnChar t (joinChar t segs) = segs := by
  intro segs
  induction segs with
  | nil => intro h _; exact absurd rfl h
  | cons s rest ih =>
    intro _ hmem
    cases rest with
    | nil =>
      exact splitOnChar_not_mem (hmem s (List.mem_cons_self _ _))
    | cons s₂ rest₂ =>
      rw [joinChar, splitOnChar_append (hmem s (List.mem_cons_self _ _)),
        ih (by simp) fun x hx => hmem x (List.mem_cons_of_mem _ hx)]

theorem splitOnChar_join_append {t : Char} :
    ∀ {segs : List (List Char)}, segs ≠ [] → (∀ s ∈ segs, t ∉ s) →
      ∀ tail, splitOnChar t (joinChar t segs ++ t :: tail) =
        segs ++ splitOnChar t tail := by
  intro segs
  induction segs with
  | nil => intro h _; exact absurd rfl h
  | cons s rest ih =>
    intro _ hmem tail
    cases rest with
    | nil =>
      rw [show joinChar t [s] = s from rfl,
        splitOnChar_append (hmem s (List.mem_cons_self _ _))]
      rfl
    | cons s₂ rest₂ =>
      rw [joinChar, List.append_assoc, List.cons_append,
        splitOnChar_append (hmem s (List.mem_cons_self _ _)),
        ih (by simp) (fun x hx => hmem x (List.mem_cons_of_mem _ hx)) tail]
      rfl

/-- Split a list into its leading part and last element. -/
def splitInitLast {α : Type} : List α → Option (List α × α)
  | [] => none
  | [x] => some ([], x)
  | x :: y :: rest =>
    match splitInitLast (y :: rest) with
    | some p => some (x :: p.1, p.2)
    | none => none

theorem splitInitLast_append {α : Type} (l : List α) (x : α) :
    splitInitLast (l ++ [x]) = some (l, x) := by
  induction l with
  | nil => rfl
  | cons c rest ih =>
    cases rest with
    | nil => rfl
    | cons y ys =>
      rw [show (c :: y :: ys) ++ [x] = c :: y :: (ys ++ [x]) by simp]
      rw [show splitInitLast (c :: y :: (ys ++ [x])) =
          (match splitInitLast (y :: (ys ++ [x])) with
           | some p => some (c :: p.1, p.2)
           | none => none) from rfl]
      rw [show y :: (ys ++ [x]) = (y :: ys) ++ [x] by simp, ih]

/-- The qualifier part of a canonical PURL: nothing for an empty map, else
`?k₁=v₁&k₂=v₂…` in the map's (key-sorted) entry order, values
percent-encoded. -/
def purlQualPart (qualifiers : List (String × String)) : List Char :=
  match qualifiers with
  | [] => []
  | _ =>
    '?' :: joinChar '&'
      (qualifiers.map fun kv => kv.1.data ++ '=' :: pctEncode kv.2.data)

/-- The namespace part: `/` followed by the namespace, encoded per
`/`-separated segment; empty when absent. -/
def purlNsPart : Option String → List Char
  | some n => '/' :: joinChar '/' ((splitOnChar '/' n.data).map pctEncode)
  | none => []

/-- The version part: `@` followed by the encoded version; empty when
absent. -/
def purlVerPart : Option String → List Char
  | some v => '@' :: pctEncode v.data
  | none => []

/-- The canonical PURL character sequence:
`pkg:<type>[/<ns-segments>]/<name>[@<version>][?<qualifiers>]`. -/
def purlToChars (p : Purl) : List Char :=
  "pkg:".data ++
  (p.ty.data ++
    (purlNsPart p.ns ++
      ('/' :: pctEncode p.name.data ++
        (purlVerPart p.version ++ purlQualPart p.qualifiers))))

/-- `Display for Purl` (the canonical string form). -/
def purl_to_string (p : Purl) : String :=
  ⟨purlToChars p⟩

/-- Parse one qualifier `key=value` pair (the value percent-decoded). -/
def parseQualPair (kvc : List Char) : String × String :=
  (⟨(splitFirst '=' kvc).1⟩, ⟨pctDecode ((splitFirst '=' kvc).2.getD [])⟩)

/-- Parse the namespace segments: absent for an empty list, else the
segments percent-decoded and re-joined with `/`. -/
def parseNsSegs (nsSegs : List (List Char)) : Option String :=
  match nsSegs with
  | [] => none
  | _ => some ⟨joinChar '/' (nsSegs.map pctDecode)⟩

/-- Parse the qualifier tail into key/value pairs. -/
def parseQualTail (qualTail : Option (List Char)) :
    List (String × String) :=
  match qualTail with
  | none => []
  | some q => (splitOnChar '&' q).map parseQualPair

/-- Parse the `/`-separated path (type, namespace segments, name) together
with the already-split version and qualifier tails. -/
def parsePath (segs : List (List Char)) (verTail : Option (List Char))
    (qualTail : Option (List Char)) : Option Purl :=
  match segs with
  | [] => none
  | tySeg :: pathRest =>
    match splitInitLast pathRest with
    | none => none
    | some (nsSegs, nameSeg) =>
      some
        { ty := ⟨tySeg⟩
          ns := parseNsSegs nsSegs
          name := ⟨pctDecode nameSeg⟩
          version := verTail.map fun v => ⟨pctDecode v⟩
          qualifiers := btreeOfList (parseQualTail qualTail) }

/-- Parse the part after `pkg:`: split off the qualifiers at the first `?`,
the version at the first `@`, then the path on `/`. -/
def purlParseBody (cs : List Char) : Option Purl :=
  let qsplit := splitFirst '?' cs
  let vsplit := splitFirst '@' qsplit.1
  parsePath (splitOnChar '/' vsplit.1) vsplit.2 qsplit.2

/-- `FromStr for Purl` (parsing the canonical form). -/
def purl_from_str (s : String) : Option Purl :=
  if s.data.take 4 = "pkg:".data then purlParseBody (s.data.drop 4)
  else none

/-- The expected qualifier tail of the canonical form. -/
def purlQualTail (qualifiers : List (String × String)) :
    Option (List Char) :=
  match qualifiers with
  | [] => none
  | _ =>
    some (joinChar '&'
      (qualifiers.map fun kv => kv.1.data ++ '=' :: pctEncode kv.2.data))

/-- The expected version tail of the canonical form. -/
def purlVerTail (version : Option String) : Option (List Char) :=
  version.map fun v => pctEncode v.data

/-- The expected namespace segments of the canonical form. -/
def purlNsSegs : Option String → List (List Char)
  | some n => (splitOnChar '/' n.data).map pctEncode
  | none => []

/-- The character set canonical PURL types range over. -/
def isTypeChar (c : Char) : Bool :=
  c.isLower || c.isDigit || c = '.' || c = '+' || c = '-'

/-- The character set qualifier keys range over. -/
def isKeyChar (c : Char) : Bool :=
  c.isLower || c.isDigit || c = '.' || c = '-' || c = '_'

/-- A `Purl` value representable by the `packageurl` crate: a well-formed
type, well-formed qualifier keys, and the qualifier entry list in the
`BTreeMap` invariant (key-sorted) order. -/
def PurlWellFormed (p : Purl) : Prop :=
  (∀ c ∈ p.ty.data, isTypeChar c = true) ∧
  (∀ kv ∈ p.qualifiers, ∀ c ∈ kv.1.data, isKeyChar c = true) ∧
  SortedKeys p.qualifiers

instance (p : Purl) : Decidable (PurlWellFormed p) := by
  rw [PurlWellFormed]
  infer_instance

theorem mem_joinChar {c t : Char} :
    ∀ {segs : List (List Char)}, c ∈ joinChar t segs →
      c = t ∨ ∃ s ∈ segs, c ∈ s := by
  intro segs
  induction segs with
  | nil => intro h; cases h
  | cons s rest ih =>
    intro h
    cases rest with
    | nil =>
      exact Or.inr ⟨s, List.mem_cons_self _ _, h⟩
    | cons s₂ rest₂ =>
      rw [joinChar] at h
      rcases List.mem_append.mp h with h | h
      · exact Or.inr ⟨s, List.mem_cons_self _ _, h⟩
      · rcases List.mem_cons.mp h with h | h
        · exact Or.inl h
        · rcases ih h with h | ⟨s₃, hs₃, hmem⟩
          · exact Or.inl h
          · exact Or.inr ⟨s₃, List.mem_cons_of_mem _ hs₃, hmem⟩

theorem not_mem_join_enc {c₀ t : Char} (h₁ : shouldEncode c₀ = true)
    (h₂ : c₀ ≠ '%') (h₃ : c₀ ≠ t) (segs : List (List Char)) :
    c₀ ∉ joinChar t (segs.map pctEncode) := by
  intro hm
  rcases mem_joinChar hm with h | ⟨s, hs, hmem⟩
  · exact h₃ h
  · obtain ⟨s₀, _, hs₀⟩ := List.mem_map.mp hs
    exact not_mem_pctEncode c₀ h₁ h₂ s₀ (hs₀ ▸ hmem)

theorem not_mem_of_charset {c₀ : Char} {s : List Char}
    {pred : Char → Bool} (hall : ∀ c ∈ s, pred c = true)
    (hc : pred c₀ = false) : c₀ ∉ s := by
  intro hm
  rw [hall c₀ hm] at hc
  cases hc

theorem not_mem_purlNsPart {c₀ : Char} (h₁ : shouldEncode c₀ = true)
    (h₂ : c₀ ≠ '%') (h₃ : c₀ ≠ '/') (ns : Option String) :
    c₀ ∉ purlNsPart ns := by
  cases ns with
  | none => simp [purlNsPart]
  | some n =>
    intro hm
    rw [purlNsPart] at hm
    rcases List.mem_cons.mp hm with hm | hm
    · exact h₃ hm
    · exact not_mem_join_enc h₁ h₂ h₃ _ hm

theorem not_mem_purlVerPart {c₀ : Char} (h₁ : shouldEncode c₀ = true)
    (h₂ : c₀ ≠ '%') (h₃ : c₀ ≠ '@') (version : Option String) :
    c₀ ∉ purlVerPart version := by
  cases version with
  | none => simp [purlVerPart]
  | some v =>
    intro hm
    rw [purlVerPart] at hm
    rcases List.mem_cons.mp hm with hm | hm
    · exact h₃ hm
    · exact not_mem_pctEncode c₀ h₁ h₂ _ hm

theorem not_mem_core {c₀ : Char} {ty name : String} {ns version : Option String}
    (h₁ : c₀ ∉ ty.data) (h₂ : c₀ ∉ purlNsPart ns) (h₃ : c₀ ≠ '/')
    (h₄ : c₀ ∉ pctEncode name.data) (h₅ : c₀ ∉ purlVerPart version) :
    c₀ ∉ ty.data ++ (purlNsPart ns ++
      ('/' :: pctEncode name.data ++ purlVerPart version)) := by
  intro hm
  rcases List.mem_append.mp hm with hm | hm
  · exact h₁ hm
  rcases List.mem_append.mp hm with hm | hm
  · exact h₂ hm
  rcases List.mem_append.mp hm with hm | hm
  · rcases List.mem_cons.mp hm with hm | hm
    · exact h₃ hm
    · exact h₄ hm
  · exact h₅ hm

theorem not_mem_path {c₀ : Char} {ty name : String} {ns : Option String}
    (h₁ : c₀ ∉ ty.data) (h₂ : c₀ ∉ purlNsPart ns) (h₃ : c₀ ≠ '/')
    (h₄ : c₀ ∉ pctEncode name.data) :
    c₀ ∉ ty.data ++ (purlNsPart ns ++ ('/' :: pctEncode name.data)) := by
  intro hm
  rcases List.mem_append.mp hm with hm | hm
  · exact h₁ hm
  rcases List.mem_append.mp hm with hm | hm
  · exact h₂ hm
  rcases List.mem_cons.mp hm with hm | hm
  · exact h₃ hm
  · exact h₄ hm

theorem amp_not_mem_qual_part {quals : List (String × String)}
    (hkeys : ∀ kv ∈ quals, ∀ c ∈ kv.1.data, isKeyChar c = true) :
    ∀ part ∈ quals.map (fun kv => kv.1.data ++ '=' :: pctEncode kv.2.data),
      '&' ∉ part := by
  intro part hpart hm
  obtain ⟨kv, hkv, hpq⟩ := List.mem_map.mp hpart
  rw [← hpq] at hm
  rcases List.mem_append.mp hm with hm | hm
  · exact absurd (hkeys kv hkv '&' hm) (by decide)
  · rcases List.mem_cons.mp hm with hm | hm
    · exact absurd hm (by decide)
    · exact not_mem_pctEncode '&' (by decide) (by decide) _ hm

theorem splitFirst_qual (core : List Char) (quals : List (String × String))
    (hcore : '?' ∉ core) :
    splitFirst '?' (core ++ purlQualPart quals) =
      (core, purlQualTail quals) := by
  cases quals with
  | nil =>
    rw [show purlQualPart [] = [] from rfl, List.append_nil,
      splitFirst_not_mem hcore]
    rfl
  | cons kv kt =>
    rw [show purlQualPart (kv :: kt) = '?' :: joinChar '&'
        ((kv :: kt).map fun kv => kv.1.data ++ '=' :: pctEncode kv.2.data)
      from rfl]
    rw [splitFirst_append hcore]
    rfl

theorem splitFirst_ver (path : List Char) (version : Option String)
    (hpath : '@' ∉ path) :
    splitFirst '@' (path ++ purlVerPart version) =
      (path, purlVerTail version) := by
  cases version with
  | none =>
    rw [show purlVerPart none = [] from rfl, List.append_nil,
      splitFirst_not_mem hpath]
    rfl
  | some v =>
    rw [show purlVerPart (some v) = '@' :: pctEncode v.data from rfl,
      splitFirst_append hpath]
    rfl

theorem splitOnChar_path (ty name : String) (ns : Option String)
    (hty : '/' ∉ ty.data) :
    splitOnChar '/'
        (ty.data ++ (purlNsPart ns ++ ('/' :: pctEncode name.data))) =
      ty.data :: (purlNsSegs ns ++ [pctEncode name.data]) := by
  cases ns with
  | none =>
    rw [show purlNsPart none = [] from rfl, List.nil_append,
      splitOnChar_append hty,
      splitOnChar_not_mem (not_mem_pctEncode '/' (by decide) (by decide) _)]
    rfl
  | some n =>
    have hne : (splitOnChar '/' n.data).map pctEncode ≠ [] := fun hEq =>
      splitOnChar_ne_nil '/' n.data (List.map_eq_nil_iff.mp hEq)
    have hmem : ∀ s ∈ (splitOnChar '/' n.data).map pctEncode, '/' ∉ s := by
      intro s hs
      obtain ⟨s₀, _, hs₀⟩ := List.mem_map.mp hs
      exact hs₀ ▸ not_mem_pctEncode '/' (by decide) (by decide) s₀
    rw [show purlNsPart (some n) = '/' :: joinChar '/'
        ((splitOnChar '/' n.data).map pctEncode) from rfl]
    rw [List.cons_append, splitOnChar_append hty,
      splitOnChar_join_append hne hmem (pctEncode name.data),
      splitOnChar_not_mem (not_mem_pctEncode '/' (by decide) (by decide) _)]
    rfl

theorem parseNsSegs_purlNsSegs (ns : Option String) :
    parseNsSegs (purlNsSegs ns) = ns := by
  cases ns with
  | none => rfl
  | some n =>
    rcases hseg : splitOnChar '/' n.data with _ | ⟨s₀, srest⟩
    · exact absurd hseg (splitOnChar_ne_nil '/' n.data)
    · rw [show purlNsSegs (some n) = (splitOnChar '/' n.data).map pctEncode
        from rfl, hseg, List.map_cons]
      show some (⟨joinChar '/'
        ((pctEncode s₀ :: srest.map pctEncode).map pctDecode)⟩ : String) =
        some n
      rw [← List.map_cons, List.map_map]
      have hdec : (s₀ :: srest).map (pctDecode ∘ pctEncode) = s₀ :: srest := by
        conv_rhs => rw [← List.map_id (s₀ :: srest)]
        exact List.map_eq_map_iff.mpr fun s _ => pctDecode_pctEncode s
      rw [hdec, ← hseg, joinChar_splitOnChar]

theorem parseVerTail (version : Option String) :
    (purlVerTail version).map (fun v => (⟨pctDecode v⟩ : String)) =
      version := by
  cases version with
  | none => rfl
  | some v =>
    show some (⟨pctDecode (pctEncode v.data)⟩ : String) = some v
    rw [pctDecode_pctEncode]

theorem parseQualTail_purlQualTail (quals : List (String × String))
    (hkeys : ∀ kv ∈ quals, ∀ c ∈ kv.1.data, isKeyChar c = true)
    (hsorted : SortedKeys quals) :
    btreeOfList (parseQualTail (purlQualTail quals)) = quals := by
  cases quals with
  | nil => rfl
  | cons kv kt =>
    rw [show purlQualTail (kv :: kt) = some (joinChar '&'
        ((kv :: kt).map fun kv => kv.1.data ++ '=' :: pctEncode kv.2.data))
      from rfl]
    rw [show ∀ q, parseQualTail (some q) = (splitOnChar '&' q).map
        parseQualPair from fun q => rfl]
    rw [splitOnChar_join (by simp) (amp_not_mem_qual_part hkeys)]
    rw [List.map_map]
    have hpt : (kv :: kt).map (parseQualPair ∘ fun kv =>
        kv.1.data ++ '=' :: pctEncode kv.2.data) = kv :: kt := by
      conv_rhs => rw [← List.map_id (kv :: kt)]
      refine List.map_eq_map_iff.mpr ?_
      intro x hx
      have hkey : '=' ∉ x.1.data :=
        not_mem_of_charset (hkeys x hx) (by decide)
      show parseQualPair (x.1.data ++ '=' :: pctEncode x.2.data) = x
      rw [parseQualPair, splitFirst_append hkey]
      show (x.1, (⟨pctDecode (pctEncode x.2.data)⟩ : String)) = x
      rw [pctDecode_pctEncode]
    rw [hpt]
    exact btreeOfList_of_sorted hsorted

theorem purl_from_str_prefix (body : List Char) :
    purl_from_str ⟨"pkg:".data ++ body⟩ = purlParseBody body := by
  have hc : ((⟨"pkg:".data ++ body⟩ : String)).data.take 4 = "pkg:".data :=
    rfl
  rw [purl_from_str, if_pos hc]
  rfl

/-- **C2.** Parsing the canonical string form of a `Purl` yields the `Purl`
back: `parse(to_string(purl)) = purl`, structural equality (the qualifiers
live in the key-sorted `BTreeMap` order, so qualifier insertion order is
irrelevant), with the canonical string URL-encoded per the PURL spec. The
hypothesis restricts to `Purl` values the `packageurl` crate can represent:
type and qualifier keys over their canonical character sets, qualifier list
in map order. -/
theorem purl_roundtrip (p : Purl) (h : PurlWellFormed p) :
    purl_from_str (purl_to_string p) = some p := by
  obtain ⟨ty, ns, name, version, quals⟩ := p
  obtain ⟨hty, hkeys, hsorted⟩ := h
  have hTyQ : '?' ∉ ty.data := not_mem_of_charset hty (by decide)
  have hTyA : '@' ∉ ty.data := not_mem_of_charset hty (by decide)
  have hTyS : '/' ∉ ty.data := not_mem_of_charset hty (by decide)
  have hcore : '?' ∉ ty.data ++ (purlNsPart ns ++
      ('/' :: pctEncode name.data ++ purlVerPart version)) :=
    not_mem_core hTyQ
      (not_mem_purlNsPart (by decide) (by decide) (by decide) ns)
      (by decide)
      (not_mem_pctEncode '?' (by decide) (by decide) _)
      (not_mem_purlVerPart (by decide) (by decide) (by decide) version)
  have hpath : '@' ∉ ty.data ++ (purlNsPart ns ++
      ('/' :: pctEncode name.data)) :=
    not_mem_path hTyA
      (not_mem_purlNsPart (by decide) (by decide) (by decide) ns)
      (by decide)
      (not_mem_pctEncode '@' (by decide) (by decide) _)
  have hstr : purl_to_string ⟨ty, ns, name, version, quals⟩ =
      ⟨"pkg:".data ++ (ty.data ++ (purlNsPart ns ++
        ('/' :: pctEncode name.data ++
          (purlVerPart version ++ purlQualPart quals))))⟩ := rfl
  rw [hstr, purl_from_str_prefix]
  have harr₁ : ty.data ++ (purlNsPart ns ++ ('/' :: pctEncode name.data ++
      (purlVerPart version ++ purlQualPart quals))) =
      (ty.data ++ (purlNsPart ns ++
        ('/' :: pctEncode name.data ++ purlVerPart version))) ++
      purlQualPart quals := by
    simp [List.append_assoc]
  have harr₂ : ty.data ++ (purlNsPart ns ++
      ('/' :: pctEncode name.data ++ purlVerPart version)) =
      (ty.data ++ (purlNsPart ns ++ ('/' :: pctEncode name.data))) ++
      purlVerPart version := by
    simp [List.append_assoc]
  rw [harr₂] at hcore
  have hq := splitFirst_qual _ quals hcore
  have hv := splitFirst_ver _ version hpath
  have hsegs := splitOnChar_path ty name ns hTyS
  simp only [purlParseBody, harr₁, harr₂, hq, hv]
  rw [hsegs, parsePath, splitInitLast_append]
  show some ({ ty := ⟨ty.data⟩,
               ns := parseNsSegs (purlNsSegs ns),
               name := ⟨pctDecode (pctEncode name.data)⟩,
               version := (purlVerTail version).map fun v => ⟨pctDecode v⟩,
               qualifiers := btreeOfList
                 (parseQualTail (purlQualTail quals)) } : Purl) =
    some ⟨ty, ns, name, version, quals⟩
  rw [parseNsSegs_purlNsSegs, parseVerTail, pctDecode_pctEncode,
    parseQualTail_purlQualTail quals hkeys hsorted]

/-- Witness for C2: the S1 purl round-trips through its canonical string
`pkg:rpm/redhat/filesystem@3.8-6.el8?arch=aarch64&tags=test1`. -/
theorem purl_roundtrip_witness :
    purl_to_string ⟨"rpm", some "redhat", "filesystem", some "3.8-6.el8",
      [("arch", "aarch64"), ("tags", "test1")]⟩ =
      "pkg:rpm/redhat/filesystem@3.8-6.el8?arch=aarch64&tags=test1" ∧
    purl_from_str (purl_to_string ⟨"rpm", some "redhat", "filesystem",
      some "3.8-6.el8", [("arch", "aarch64"), ("tags", "test1")]⟩) =
      some ⟨"rpm", some "redhat", "filesystem", some "3.8-6.el8",
        [("arch", "aarch64"), ("tags", "test1")]⟩ :=
  ⟨by decide,
   purl_roundtrip ⟨"rpm", some "redhat", "filesystem", some "3.8-6.el8",
      [("arch", "aarch64"), ("tags", "test1")]⟩ (by decide)⟩
